import Mathlib

/-!
Verification of the DayPlanner scheduling and layout core.

This file gives a shallow embedding, in Lean, of the scheduling core of the
DayPlanner repository:

* the Interval Model (`toMins`, `fromMins`, clock-string validity);
* the Local Fallback Scheduler (`fallbackOptimize` in `src/main/ollama.ts`);
* the Plan Optimization Orchestrator (`optimizePlanWithOllama` in
  `src/main/ollama.ts`), with the external advisor call and the platform
  JSON parser factored out as an explicit `AdvisorResult` input;
* the Lane Assignment Engine (`computeColumns` in the renderer);
* the Interactive Reschedule (drag) Controller (`handleTaskMouseDown` /
  `applyDragFrame` / `onMouseUp` in the renderer).

Times are kept as the strings the source stores (`"HH:MM"`); JavaScript's
`split`/`Number` parsing, string comparison and number printing are embedded
at the character level.  JavaScript numbers are modelled as `Int`/`ℚ`; the
`NaN` produced by `Number` on a malformed string is out of the Interval
Model's contract (spec section 4.1) and is modelled by a default value, so the
theorems about minute arithmetic carry a clock-validity hypothesis.
-/

namespace DayPlanner

/-! ### Interval model: characters, parsing and printing of `HH:MM` strings -/

/-- Decimal value of a digit character (caller guarantees `c.isDigit`). -/
def dVal (c : Char) : Int := (c.toNat : Int) - 48

/-- Split a character list at each `':'`, as JavaScript `t.split(':')`. -/
def splitColon : List Char → List (List Char)
  | [] => [[]]
  | c :: cs =>
    if c = ':' then [] :: splitColon cs
    else
      match splitColon cs with
      | p :: ps => (c :: p) :: ps
      | [] => [[c]]

/-- JavaScript `Number(...)` on a piece of a time string.  A nonempty all-digit
string evaluates to its decimal value; anything else gives `NaN`, which is out
of the Interval Model's contract and is modelled by `0`. -/
def numberOf (cs : List Char) : Int :=
  if cs ≠ [] ∧ cs.all Char.isDigit then cs.foldl (fun a c => 10 * a + dVal c) 0
  else 0

/-- Function `toMins` of `src/main/ollama.ts` (also `timeToMins` of the renderer):
`const [h, m] = t.split(':').map(Number); return h * 60 + m`. -/
def toMins (t : String) : Int :=
  match (splitColon t.data).map numberOf with
  | h :: m :: _ => h * 60 + m
  | _ => 0

/-- Decimal digits of a natural number, as JavaScript `String(n)`. -/
def natChars (n : Nat) : List Char := Nat.toDigits 10 n

/-- JavaScript `s.padStart(2, '0')`. -/
def pad2 (cs : List Char) : List Char := List.replicate (2 - cs.length) '0' ++ cs

/-- Function `fromMins` of `src/main/ollama.ts` (also `minsToTime` of the renderer). -/
def fromMins (m : Nat) : String :=
  ⟨pad2 (natChars (m / 60)) ++ ':' :: pad2 (natChars (m % 60))⟩

/-- The orchestrator's update validation regex `/^\d{2}:\d{2}$/`. -/
def hhmmShape (s : String) : Bool :=
  match s.data with
  | [h1, h2, c, m1, m2] => h1.isDigit && h2.isDigit && c == ':' && m1.isDigit && m2.isDigit
  | _ => false

/-- A well-formed wall-clock time `HH:MM` with `00:00 ≤ t ≤ 23:59`
(spec section 3: validated at the boundary before entering the core). -/
def validHHMM (s : String) : Bool :=
  match s.data with
  | [h1, h2, c, m1, m2] =>
    h1.isDigit && h2.isDigit && c == ':' && m1.isDigit && m2.isDigit &&
      decide (10 * dVal h1 + dVal h2 < 24) && decide (10 * dVal m1 + dVal m2 < 60)
  | _ => false

/-- Lexicographic comparison of character lists; `lexLe a b` iff
`a.localeCompare(b) ≤ 0` (for the digit/colon strings the planner compares,
locale collation agrees with code-unit order). -/
def lexLe : List Char → List Char → Bool
  | [], _ => true
  | _ :: _, [] => false
  | c :: cs, d :: ds =>
    if c.toNat < d.toNat then true else if d.toNat < c.toNat then false else lexLe cs ds

/-- String comparison used by every `sort((a, b) => x.localeCompare(y))` in
the source. -/
def strLe (a b : String) : Bool := lexLe a.data b.data

/-! ### Stable sorting, as JavaScript `Array.prototype.sort` -/

/-- Insert `x` into a sorted list, after every element `y` with `le y x`;
inserting elements in input order makes the sort stable, matching the
stability guarantee of JavaScript `Array.prototype.sort`. -/
def insBy (le : α → α → Bool) (x : α) : List α → List α
  | [] => [x]
  | y :: ys => if le y x then y :: insBy le x ys else x :: y :: ys

/-- Stable sort by a boolean comparison. -/
def sortBy (le : α → α → Bool) (l : List α) : List α :=
  l.foldl (fun acc x => insBy le x acc) []

/-! ### Data model (spec section 3, `src/preload/index.ts` `type Task`) -/

structure Tag where
  id : String
  name : String
  color : String
deriving DecidableEq

structure Task where
  id : String
  title : String
  taskDate : String
  startTime : String
  endTime : String
  tagId : Option String
  notes : String
  fixed : Bool
  done : Bool
deriving DecidableEq

structure PlannerState where
  tags : List Tag
  tasks : List Task
deriving DecidableEq

structure OptimizeResult where
  tasks : List Task
  summary : String
deriving DecidableEq

/-- Tasks ordered by their start-time string: the comparator
`(a, b) => a.startTime.localeCompare(b.startTime)`. -/
def taskLe (a b : Task) : Bool := strLe a.startTime b.startTime

/-- Half-open interval overlap of two tasks, in minutes:
`[s₁, e₁) ∩ [s₂, e₂) ≠ ∅`. -/
def overlapT (a b : Task) : Prop :=
  toMins a.startTime < toMins b.endTime ∧ toMins b.startTime < toMins a.endTime

instance (a b : Task) : Decidable (overlapT a b) := by unfold overlapT; infer_instance

/-! ### Local Fallback Scheduler (`fallbackOptimize`, `src/main/ollama.ts`) -/

/-- An occupied time window `{ start, end }`. -/
structure Window where
  wStart : Int
  wEnd : Int
deriving DecidableEq

/-- The loop `for (let attempt = 0; attempt < 24 * 4; attempt++)`: scan
candidate starts in 15-minute steps, accepting the first `s` whose interval
`[s, s + duration)` meets no occupied window and ends by 23:00. -/
def scanSlot (occ : List Window) (duration : Int) : Int → Nat → Option Int
  | _, 0 => none
  | slotStart, n + 1 =>
    let slotEnd := slotStart + duration
    if !(occ.any fun w => decide (slotStart < w.wEnd) && decide (slotEnd > w.wStart)) &&
        decide (slotEnd ≤ 23 * 60) then
      some slotStart
    else scanSlot occ duration (slotStart + 15) n

/-- Mutable loop state of `fallbackOptimize`: the `occupied` windows, the
placement `cursor` and the `placed` output list. -/
structure PlaceState where
  occupied : List Window
  cursor : Int
  placed : List Task
deriving DecidableEq

/-- The spread `{ ...task, startTime: fromMins(slotStart), endTime: fromMins(slotEnd) }`:
the task rewritten to the accepted slot. -/
def placedTask (task : Task) (s duration : Int) : Task :=
  { task with startTime := fromMins s.toNat, endTime := fromMins (s + duration).toNat }

/-- One iteration of `for (const task of sortedFlex)`. -/
def placeStep (st : PlaceState) (task : Task) : PlaceState :=
  let duration := toMins task.endTime - toMins task.startTime
  if duration ≤ 0 then { st with placed := st.placed ++ [task] }
  else
    match scanSlot st.occupied duration st.cursor (24 * 4) with
    | some s =>
      { occupied := st.occupied ++ [⟨s, s + duration⟩]
        cursor := s + duration
        placed := st.placed ++ [placedTask task s duration] }
    | none => { st with placed := st.placed ++ [task] }

/-- The flexible tasks of a state, sorted by current start time. -/
def sortedFlexOf (state : PlannerState) : List Task :=
  sortBy taskLe (state.tasks.filter fun t => !t.fixed)

/-- Occupied windows seeded from the fixed tasks. -/
def occupiedOf (state : PlannerState) : List Window :=
  (state.tasks.filter fun t => t.fixed).map fun t => ⟨toMins t.startTime, toMins t.endTime⟩

/-- The whole placement loop of `fallbackOptimize`. -/
def fallbackRun (state : PlannerState) : PlaceState :=
  (sortedFlexOf state).foldl placeStep ⟨occupiedOf state, 7 * 60, []⟩

/-- Function `fallbackOptimize` of `src/main/ollama.ts`. -/
def fallbackOptimize (state : PlannerState) : OptimizeResult :=
  { tasks := sortBy taskLe ((state.tasks.filter fun t => t.fixed) ++ (fallbackRun state).placed)
    summary :=
      "Flexible tasks were rearranged to minimize gaps and avoid conflicts with fixed commitments." }

/-! ### Plan Optimization Orchestrator (`optimizePlanWithOllama`)

The advisor transport (`callAvailableProvider`) and the platform JSON parser
(`JSON.parse` over `extractJson`) are external capabilities; they are factored
out as an explicit `AdvisorResult` input.  `Json` is the value space of
`JSON.parse`; JavaScript property access, strict equality and string coercion
are embedded below. -/

inductive Json where
  | null : Json
  | bool : Bool → Json
  | num : Int → Json
  | str : String → Json
  | arr : List Json → Json
  | obj : List (String × Json) → Json

/-- Outcome of `await callAvailableProvider(...)` followed by
`JSON.parse(extractJson(raw))`:
* `threw` — the provider call threw (unreachable endpoint, HTTP error, ...);
* `parseFailed` — no JSON object parses from the returned text;
* `parsed j` — the parsed JSON value. -/
inductive AdvisorResult where
  | threw : AdvisorResult
  | parseFailed : AdvisorResult
  | parsed : Json → AdvisorResult

/-- JavaScript property access `v.k`: throws a `TypeError` on `null`
(modelled as `Except.error ()`), yields the field of an object, and
`undefined` (modelled as `none`) on any other receiver. -/
def jsGet : Json → String → Except Unit (Option Json)
  | Json.null, _ => Except.error ()
  | Json.obj fields, k => Except.ok (fields.lookup k)
  | _, _ => Except.ok none

mutual

/-- JavaScript `ToString` of a JSON value (array elements that are `null`
stringify to the empty string inside `Array.prototype.toString`). -/
def jsonToString : Json → String
  | Json.null => "null"
  | Json.bool true => "true"
  | Json.bool false => "false"
  | Json.num n => ⟨if n < 0 then '-' :: natChars n.natAbs else natChars n.natAbs⟩
  | Json.str s => s
  | Json.arr l => String.intercalate "," (arrStrings l)
  | Json.obj _ => "[object Object]"

/-- Element strings of `Array.prototype.toString`; `null` elements become
empty strings. -/
def arrStrings : List Json → List String
  | [] => []
  | Json.null :: vs => "" :: arrStrings vs
  | v :: vs => jsonToString v :: arrStrings vs

end

/-- JavaScript `ToString` of a possibly-`undefined` value, as coerced by
`RegExp.prototype.test`. -/
def jsCoerce : Option Json → String
  | none => "undefined"
  | some v => jsonToString v

/-- JavaScript strict equality `v === s` between a possibly-`undefined` value
and a string: true exactly when `v` is the same string. -/
def jsStrEq (v : Option Json) (s : String) : Bool :=
  match v with
  | some (Json.str t) => t == s
  | _ => false

/-- The search `parsed.tasks.find((p) => p.id === task.id)`: first element whose `id`
property is strictly equal to the task's id string; evaluating the predicate
on a `null` element throws. -/
def findUpdateExc (id : String) : List Json → Except Unit (Option Json)
  | [] => Except.ok none
  | p :: ps =>
    match jsGet p "id" with
    | Except.error e => Except.error e
    | Except.ok idField =>
      if jsStrEq idField id then Except.ok (some p) else findUpdateExc id ps

/-- The per-task body of `state.tasks.map((task) => ...)` in
`optimizePlanWithOllama`: fixed tasks are returned untouched, a missing
update leaves the task unchanged, and an update is applied only when both
times match `/^\d{2}:\d{2}$/`.  JavaScript stores the raw update value in the
time field; the string it coerces to (identical for string-valued updates) is
recorded here. -/
def applyUpdateExc (updates : List Json) (task : Task) : Except Unit Task :=
  if task.fixed then Except.ok task
  else
    match findUpdateExc task.id updates with
    | Except.error e => Except.error e
    | Except.ok none => Except.ok task
    | Except.ok (some u) =>
      match jsGet u "startTime" with
      | Except.error e => Except.error e
      | Except.ok sF =>
        match jsGet u "endTime" with
        | Except.error e => Except.error e
        | Except.ok eF =>
          if hhmmShape (jsCoerce sF) && hhmmShape (jsCoerce eF) then
            Except.ok { task with startTime := jsCoerce sF, endTime := jsCoerce eF }
          else Except.ok task

/-- The mapping `state.tasks.map(...)` with a possibly-throwing callback. -/
def mapTasksExc (updates : List Json) : List Task → Except Unit (List Task)
  | [] => Except.ok []
  | t :: ts =>
    match applyUpdateExc updates t with
    | Except.error e => Except.error e
    | Except.ok r =>
      match mapTasksExc updates ts with
      | Except.error e => Except.error e
      | Except.ok rs => Except.ok (r :: rs)

/-- The body of the `try` block after parsing: the shape check
`if (!Array.isArray(parsed.tasks) || typeof parsed.summary !== 'string')
throw ...` followed by the update mapping. -/
def orchestrate (state : PlannerState) (j : Json) : Except Unit OptimizeResult :=
  match jsGet j "tasks" with
  | Except.error e => Except.error e
  | Except.ok tasksField =>
    match jsGet j "summary" with
    | Except.error e => Except.error e
    | Except.ok summaryField =>
      match tasksField, summaryField with
      | some (Json.arr updates), some (Json.str s) =>
        match mapTasksExc updates state.tasks with
        | Except.error e => Except.error e
        | Except.ok ts => Except.ok { tasks := ts, summary := s }
      | _, _ => Except.error ()

/-- Function `optimizePlanWithOllama` of `src/main/ollama.ts`: any throw inside the
`try` block — including advisor failure and parse failure — is caught and
degrades to `fallbackOptimize`. -/
def optimizePlan (state : PlannerState) (adv : AdvisorResult) : OptimizeResult :=
  match adv with
  | AdvisorResult.threw => fallbackOptimize state
  | AdvisorResult.parseFailed => fallbackOptimize state
  | AdvisorResult.parsed j =>
    match orchestrate state j with
    | Except.ok r => r
    | Except.error _ => fallbackOptimize state

/-! ### Lane Assignment Engine (`computeColumns`, renderer) -/

/-- The running maximum `Math.max(...group.map((t) => timeToMins(t.endTime)))`; `none` stands for
the `-Infinity` of an empty spread (never reached: groups are nonempty). -/
def maxEndOf (g : List Task) : Option Int :=
  match g with
  | [] => none
  | t :: ts => some ((ts.map fun u => toMins u.endTime).foldl max (toMins t.endTime))

/-- The test `timeToMins(task.startTime) < groupEnd` — false against `-Infinity`. -/
def joinCond (g : List Task) (t : Task) : Bool :=
  match maxEndOf g with
  | some e => decide (toMins t.startTime < e)
  | none => false

/-- The inner `for (const group of groups)` loop: push the task onto the
first group whose running maximum end exceeds its start. -/
def tryJoin : List (List Task) → Task → Option (List (List Task))
  | [], _ => none
  | g :: gs, t =>
    if joinCond g t then some ((g ++ [t]) :: gs)
    else (tryJoin gs t).map (g :: ·)

/-- The loop commented `// Build groups of overlapping tasks` over the sorted task list. -/
def buildGroups (sorted : List Task) : List (List Task) :=
  sorted.foldl (fun gs t => (tryJoin gs t).getD (gs ++ [[t]])) []

/-- The inner `for (let c = 0; c < cols.length; c++)` loop: append the task
to the first column whose last task ends at or before its start. -/
def tryPlace : List (List Task) → Task → Option (List (List Task))
  | [], _ => none
  | c :: cs, t =>
    match c.getLast? with
    | some last =>
      if toMins last.endTime ≤ toMins t.startTime then some ((c ++ [t]) :: cs)
      else (tryPlace cs t).map (c :: ·)
    | none => (tryPlace cs t).map (c :: ·)

/-- The loop commented `// Assign columns within each group (greedy)`. -/
def buildCols (g : List Task) : List (List Task) :=
  g.foldl (fun cols t => (tryPlace cols t).getD (cols ++ [[t]])) []

/-- The lane assignment of one group, before projecting tasks to their ids:
the sequence of `result.set(task.id, { col: ci, totalCols: cols.length })`
calls made by `cols.forEach((col, ci) => ...)`. -/
def groupEntries (g : List Task) : List (Task × Nat) :=
  (buildCols g).enum.flatMap fun p => p.2.map fun t => (t, p.1)

/-- All `(task, lane)` assignments made by `computeColumns`, in call order. -/
def laneEntries (tasks : List Task) : List (Task × Nat) :=
  (buildGroups (sortBy taskLe tasks)).flatMap groupEntries

/-- Function `computeColumns` of the renderer: the association list behind the
returned `Map<taskId, { col, totalCols }>` (`Map.set` keeps the last write
per id; task ids are unique per spec section 3). -/
def computeColumns (tasks : List Task) : List (String × Nat × Nat) :=
  (buildGroups (sortBy taskLe tasks)).flatMap fun g =>
    (buildCols g).enum.flatMap fun p => p.2.map fun t => (t.id, p.1, (buildCols g).length)

/-! ### Interactive Reschedule Controller (drag), renderer

Pixels and the magnified pixel-to-minute ratio `DRAG_PX_PER_MIN = 2.2` are
embedded over `ℚ`; `Math.round` is round-half-up, which is Mathlib's
`round`. -/

/-- The drag state captured by `handleTaskMouseDown`. -/
structure DragState where
  taskId : String
  startClientY : ℚ
  originalStart : Int
  duration : Int
  moved : Bool
  currentStart : Int
deriving DecidableEq

/-- Handler `handleTaskMouseDown`: capture the original start minute and the
duration, floored at 15 minutes. -/
def mkDrag (task : Task) (clientY : ℚ) : DragState :=
  { taskId := task.id
    startClientY := clientY
    originalStart := toMins task.startTime
    duration := max 15 (toMins task.endTime - toMins task.startTime)
    moved := false
    currentStart := toMins task.startTime }

/-- Frame step `applyDragFrame` for one animation frame at pointer position `latestY`:
mark the gesture moved past 3 px, clamp the dragged start into
`[TIMELINE_START*60, TIMELINE_END*60 - duration]`, round to the 5-minute
grid and rewrite the task's times immediately (the live preview). -/
def applyDragFrame (drag : DragState) (task : Task) (latestY : ℚ) : DragState × Task :=
  if drag.taskId ≠ task.id then (drag, task)
  else
    let deltaMinutesRaw : ℚ := (latestY - drag.startClientY) / (11 / 5)
    let moved := drag.moved || decide (3 < |latestY - drag.startClientY|)
    let minStart : ℚ := 6 * 60
    let maxStart : ℚ := 23 * 60 - drag.duration
    let nextStart : ℚ := max minStart (min maxStart ((drag.originalStart : ℚ) + deltaMinutesRaw))
    let nextStartSmoothed : Int := round (nextStart / 5) * 5
    let nextEnd : Int := nextStartSmoothed + drag.duration
    ({ drag with moved := moved, currentStart := nextStartSmoothed },
     { task with startTime := fromMins nextStartSmoothed.toNat
                 endTime := fromMins nextEnd.toNat })

/-- Handler `onMouseUp`: if the gesture moved, snap to the 15-minute grid, clamp and
commit; otherwise treat it as a click and open the task for edit.  Returns
the task's final stored state and whether the edit modal was opened. -/
def dragMouseUp (drag : DragState) (task : Task) : Task × Bool :=
  if drag.moved then
    let snappedStart : Int := round ((drag.currentStart : ℚ) / 15) * 15
    let minStart : Int := 6 * 60
    let maxStart : Int := 23 * 60 - drag.duration
    let finalStart := max minStart (min maxStart snappedStart)
    let finalEnd := finalStart + drag.duration
    ({ task with startTime := fromMins finalStart.toNat, endTime := fromMins finalEnd.toNat },
     false)
  else (task, true)

/-- A whole drag gesture on one task: pointer-down at `y0`, one
`applyDragFrame` per animation frame at the recorded pointer positions, then
pointer release. -/
def runGesture (task : Task) (y0 : ℚ) (frames : List ℚ) : Task × Bool :=
  let s := frames.foldl (fun (p : DragState × Task) y => applyDragFrame p.1 p.2 y)
    (mkDrag task y0, task)
  dragMouseUp s.1 s.2

/-! ### Plain (non-throwing) views of the advisor-update pipeline, used to
state theorems about well-shaped advisor responses -/

/-- Property read that cannot throw: the field of an object, else `undefined`. -/
def jsField (j : Json) (k : String) : Option Json :=
  match j with
  | Json.obj fields => fields.lookup k
  | _ => none

/-- An update of the advisor's response contract: an object with exactly the
string fields `id`, `startTime`, `endTime`. -/
def isSimpleUpdate : Json → Bool
  | Json.obj [("id", Json.str _), ("startTime", Json.str _), ("endTime", Json.str _)] => true
  | _ => false

/-- String field of an update object (empty for a missing or non-string field;
only applied under `isSimpleUpdate`). -/
def updField (u : Json) (k : String) : String :=
  match jsField u k with
  | some (Json.str s) => s
  | _ => ""

/-- First update whose `id` field equals the given task id (the non-throwing
view of `parsed.tasks.find(...)`). -/
def findUpdate (id : String) : List Json → Option Json
  | [] => none
  | p :: ps => if jsStrEq (jsField p "id") id then some p else findUpdate id ps

/-- A well-shaped advisor response: `{ "summary": s, "tasks": [...] }`. -/
def mkResponse (s : String) (updates : List Json) : Json :=
  Json.obj [("summary", Json.str s), ("tasks", Json.arr updates)]

/-- Whether `Array.isArray(parsed.tasks)` holds (false also when reading the
field would throw, i.e. on `null`). -/
def tasksIsArray (j : Json) : Bool :=
  match jsField j "tasks" with
  | some (Json.arr _) => true
  | _ => false

/-- Whether `typeof parsed.summary === 'string'` holds. -/
def summaryIsString (j : Json) : Bool :=
  match jsField j "summary" with
  | some (Json.str _) => true
  | _ => false

/-- Whether a JSON value is not `null` (property access on it cannot throw). -/
def notNull : Json → Bool
  | Json.null => false
  | _ => true

/-- The pure per-task update of the orchestrator's success path, equal to the
throwing embedding whenever every update element is non-`null`
(`applyUpdateExc_eq`). -/
def applyUpdate (updates : List Json) (task : Task) : Task :=
  if task.fixed then task
  else
    match findUpdate task.id updates with
    | none => task
    | some u =>
      if hhmmShape (jsCoerce (jsField u "startTime")) &&
          hhmmShape (jsCoerce (jsField u "endTime")) then
        { task with startTime := jsCoerce (jsField u "startTime")
                    endTime := jsCoerce (jsField u "endTime") }
      else task

/-! ### Verification predicates (proof infrastructure, not source code) -/

/-- A task of the fallback scheduler's `placed` list that was rewritten to a
fresh slot: flexible, inside the `07:00`–`23:00` placement window, its window
registered in `occupied`, clear of every fixed-task window, and matching some
input flexible task's id and (positive) duration. -/
def RewriteGood (F : List Task) (occ0 occ : List Window) (a : Task) : Prop :=
  a.fixed = false ∧
  7 * 60 ≤ toMins a.startTime ∧
  toMins a.endTime ≤ 23 * 60 ∧
  toMins a.startTime < toMins a.endTime ∧
  (⟨toMins a.startTime, toMins a.endTime⟩ : Window) ∈ occ ∧
  (∀ w ∈ occ0, ¬ (toMins a.startTime < w.wEnd ∧ w.wStart < toMins a.endTime)) ∧
  ∃ t ∈ F, a.id = t.id ∧ 0 < toMins t.endTime - toMins t.startTime ∧
    toMins a.endTime - toMins a.startTime = toMins t.endTime - toMins t.startTime

/-- Loop invariant of the fallback scheduler's placement fold over the
flexible tasks `F`, with fixed-task windows `occ0`. -/
def PlaceInv (F : List Task) (occ0 : List Window) (st : PlaceState) : Prop :=
  7 * 60 ≤ st.cursor ∧
  (∀ w ∈ occ0, w ∈ st.occupied) ∧
  (∀ a ∈ st.placed, a ∈ F ∨ RewriteGood F occ0 st.occupied a) ∧
  st.placed.Pairwise fun a b => a ∈ F ∨ b ∈ F ∨ ¬ overlapT a b

/-- Start-time order in minutes. -/
def sLe (u v : Task) : Prop := toMins u.startTime ≤ toMins v.startTime

/-- Temporal separation: `u` ends at or before `v` starts. -/
def sepT (u v : Task) : Prop := toMins u.endTime ≤ toMins v.startTime

/-- Loop invariant of the lane engine's group-building fold: `l` are the
tasks still to process (in start order), `gs` the groups built so far.
Every processed task starts no later than any remaining one; each group is in
start order; earlier groups end before later groups start; and every group
except the last one ends before every remaining task starts. -/
def GroupInv (l : List Task) (gs : List (List Task)) : Prop :=
  (∀ g ∈ gs, ∀ u ∈ g, ∀ v ∈ l, sLe u v) ∧
  (∀ g ∈ gs, List.Pairwise sLe g) ∧
  List.Pairwise (fun g h => ∀ u ∈ g, ∀ v ∈ h, sepT u v) gs ∧
  (∀ g ∈ gs.dropLast, ∀ u ∈ g, ∀ v ∈ l, sepT u v)

/-- Loop invariant of the per-group column-assignment fold over group `g0`:
column members come from `g0`, start no later than any remaining task, and
each column is a chain of separated tasks. -/
def ColsInv (g0 : List Task) (l : List Task) (cols : List (List Task)) : Prop :=
  (∀ c ∈ cols, ∀ u ∈ c, u ∈ g0) ∧
  (∀ c ∈ cols, ∀ u ∈ c, ∀ v ∈ l, sLe u v) ∧
  (∀ c ∈ cols, List.Pairwise sepT c)

/-! ### Concrete test fixtures -/

/-- An `{ id, startTime, endTime }` update object of the advisor contract. -/
def updObj (i s e : String) : Json :=
  Json.obj [("id", Json.str i), ("startTime", Json.str s), ("endTime", Json.str e)]

def taskA : Task := ⟨"a", "Task A", "2026-01-01", "09:00", "10:00", none, "", false, false⟩

def taskB : Task := ⟨"b", "Task B", "2026-01-01", "11:00", "12:00", none, "", false, false⟩

def fixedF : Task := ⟨"f", "Fixed F", "2026-01-01", "22:00", "23:00", none, "", true, false⟩

def fixedG : Task := ⟨"g", "Fixed G", "2026-01-01", "08:00", "09:00", none, "", true, false⟩

def fixedH : Task := ⟨"h", "Fixed H", "2026-01-01", "08:30", "09:30", none, "", true, false⟩

def flexX : Task := ⟨"x", "Flex X", "2026-01-01", "10:00", "10:30", none, "", false, false⟩

def flexZero : Task := ⟨"z", "Zero", "2026-01-01", "10:00", "10:00", none, "", false, false⟩

/-- The record the fallback scheduler produces for `flexX` when the only
fixed task is `fixedG`: placed at the 07:00 cursor. -/
def placedX : Task := ⟨"x", "Flex X", "2026-01-01", "07:00", "07:30", none, "", false, false⟩

def dragTaskOff : Task := ⟨"t", "Drag", "2026-01-01", "09:07", "09:17", none, "", false, false⟩

def dragTaskOn : Task := ⟨"t", "Drag", "2026-01-01", "09:05", "09:35", none, "", false, false⟩

/-! ## Infrastructure lemmas -/

/-! ### Stable sort: permutation and sortedness -/

theorem insBy_perm (le : α → α → Bool) (x : α) (l : List α) :
    List.Perm (insBy le x l) (x :: l) := by
  induction l with
  | nil => simp [insBy]
  | cons y ys ih =>
    rw [insBy]
    split
    · exact (ih.cons y).trans (List.Perm.swap x y ys)
    · exact List.Perm.refl _

theorem foldl_insBy_perm (le : α → α → Bool) :
    ∀ (l acc : List α), List.Perm (l.foldl (fun acc x => insBy le x acc) acc) (l ++ acc)
  | [], acc => by simp
  | x :: xs, acc => by
    have h1 := foldl_insBy_perm le xs (insBy le x acc)
    have h2 : List.Perm (xs ++ insBy le x acc) (xs ++ x :: acc) :=
      List.Perm.append_left xs (insBy_perm le x acc)
    have h3 : List.Perm (xs ++ x :: acc) (x :: (xs ++ acc)) := List.perm_middle
    simpa using (h1.trans h2).trans h3

theorem sortBy_perm (le : α → α → Bool) (l : List α) : List.Perm (sortBy le l) l := by
  simpa using foldl_insBy_perm le l []

theorem mem_sortBy {le : α → α → Bool} {l : List α} {a : α} :
    a ∈ sortBy le l ↔ a ∈ l := (sortBy_perm le l).mem_iff

theorem mem_insBy {le : α → α → Bool} {l : List α} {x a : α} :
    a ∈ insBy le x l ↔ a = x ∨ a ∈ l := by
  rw [(insBy_perm le x l).mem_iff, List.mem_cons]

theorem insBy_pairwise {le : α → α → Bool}
    (htot : ∀ a b, le a b = false → le b a = true)
    (htrans : ∀ a b c, le a b = true → le b c = true → le a c = true)
    {x : α} {l : List α} (h : l.Pairwise fun a b => le a b = true) :
    (insBy le x l).Pairwise fun a b => le a b = true := by
  induction l with
  | nil => simp [insBy]
  | cons y ys ih =>
    rw [insBy]
    rcases List.pairwise_cons.mp h with ⟨hy, hys⟩
    split
    · rename_i hle
      refine List.pairwise_cons.mpr ⟨?_, ih hys⟩
      intro z hz
      rcases mem_insBy.mp hz with rfl | hz
      · exact hle
      · exact hy z hz
    · rename_i hle
      have hxy : le x y = true := htot y x (by simpa using hle)
      refine List.pairwise_cons.mpr ⟨?_, h⟩
      intro z hz
      rcases List.mem_cons.mp hz with rfl | hz
      · exact hxy
      · exact htrans x y z hxy (hy z hz)

theorem sortBy_pairwise {le : α → α → Bool}
    (htot : ∀ a b, le a b = false → le b a = true)
    (htrans : ∀ a b c, le a b = true → le b c = true → le a c = true)
    (l : List α) : (sortBy le l).Pairwise fun a b => le a b = true := by
  suffices h : ∀ (l acc : List α), acc.Pairwise (fun a b => le a b = true) →
      (l.foldl (fun acc x => insBy le x acc) acc).Pairwise fun a b => le a b = true by
    exact h l [] (by simp)
  intro l
  induction l with
  | nil => intro acc h; simpa using h
  | cons x xs ih =>
    intro acc h
    exact ih (insBy le x acc) (insBy_pairwise htot htrans h)

/-! ### Character and time-string lemmas -/

theorem isDigit_toNat {c : Char} (h : c.isDigit = true) : 48 ≤ c.toNat ∧ c.toNat ≤ 57 := by
  simpa [Char.isDigit] using h

theorem isDigit_ne_colon {c : Char} (h : c.isDigit = true) : c ≠ ':' := by
  intro heq
  subst heq
  exact absurd h (by decide)

theorem lexLe_total (a b : List Char) : lexLe a b = false → lexLe b a = true := by
  induction a generalizing b with
  | nil => simp [lexLe]
  | cons c cs ih =>
    cases b with
    | nil => simp [lexLe]
    | cons d ds =>
      rw [lexLe, lexLe]
      intro h
      split at h
      · exact absurd h (by simp)
      · rename_i h1
        split at h
        · rename_i h2
          simp [h2, if_neg h1]
        · rename_i h2
          have h3 : ¬ d.toNat < c.toNat := h2
          have h4 : ¬ c.toNat < d.toNat := h1
          rw [if_neg h3, if_neg h4]
          exact ih ds h

theorem lexLe_trans (a b c : List Char) :
    lexLe a b = true → lexLe b c = true → lexLe a c = true := by
  induction a generalizing b c with
  | nil => simp [lexLe]
  | cons x xs ih =>
    cases b with
    | nil => simp [lexLe]
    | cons y ys =>
      cases c with
      | nil => simp [lexLe]
      | cons z zs =>
        rw [lexLe, lexLe, lexLe]
        intro hab hbc
        by_cases hxy : x.toNat < y.toNat
        · by_cases hyz : y.toNat < z.toNat
          · simp [Nat.lt_trans hxy hyz]
          · rw [if_neg hyz] at hbc
            by_cases hzy : z.toNat < y.toNat
            · rw [if_pos hzy] at hbc; exact absurd hbc (by simp)
            · have hxz : x.toNat < z.toNat := by omega
              simp [hxz]
        · rw [if_neg hxy] at hab
          by_cases hyx : y.toNat < x.toNat
          · rw [if_pos hyx] at hab; exact absurd hab (by simp)
          · rw [if_neg hyx] at hab
            by_cases hyz : y.toNat < z.toNat
            · have hxz : x.toNat < z.toNat := by omega
              simp [hxz]
            · rw [if_neg hyz] at hbc
              by_cases hzy : z.toNat < y.toNat
              · rw [if_pos hzy] at hbc; exact absurd hbc (by simp)
              · rw [if_neg hzy] at hbc
                have h1 : ¬ x.toNat < z.toNat := by omega
                have h2 : ¬ z.toNat < x.toNat := by omega
                rw [if_neg h1, if_neg h2]
                exact ih ys zs hab hbc

theorem strLe_total (a b : String) : strLe a b = false → strLe b a = true :=
  lexLe_total a.data b.data

theorem strLe_trans (a b c : String) :
    strLe a b = true → strLe b c = true → strLe a c = true :=
  lexLe_trans a.data b.data c.data

theorem taskLe_total (a b : Task) : taskLe a b = false → taskLe b a = true :=
  strLe_total a.startTime b.startTime

theorem taskLe_trans (a b c : Task) :
    taskLe a b = true → taskLe b c = true → taskLe a c = true :=
  strLe_trans a.startTime b.startTime c.startTime

theorem splitColon_hhmm (c1 c2 c4 c5 : Char)
    (h1 : c1 ≠ ':') (h2 : c2 ≠ ':') (h4 : c4 ≠ ':') (h5 : c5 ≠ ':') :
    splitColon [c1, c2, ':', c4, c5] = [[c1, c2], [c4, c5]] := by
  simp [splitColon, h1, h2, h4, h5]

theorem numberOf_two (c d : Char) (hc : c.isDigit = true) (hd : d.isDigit = true) :
    numberOf [c, d] = 10 * dVal c + dVal d := by
  rw [numberOf, if_pos]
  · simp
  · exact ⟨by simp, by simp [hc, hd]⟩

theorem validHHMM_shape {s : String} (h : validHHMM s = true) :
    ∃ h1 h2 m1 m2 : Char, s.data = [h1, h2, ':', m1, m2] ∧
      h1.isDigit = true ∧ h2.isDigit = true ∧ m1.isDigit = true ∧ m2.isDigit = true ∧
      10 * dVal h1 + dVal h2 < 24 ∧ 10 * dVal m1 + dVal m2 < 60 ∧
      toMins s = (10 * dVal h1 + dVal h2) * 60 + (10 * dVal m1 + dVal m2) := by
  rcases hs : s.data with _ | ⟨c1, _ | ⟨c2, _ | ⟨c3, _ | ⟨c4, _ | ⟨c5, _ | ⟨c6, rest⟩⟩⟩⟩⟩⟩ <;>
    rw [validHHMM, hs] at h <;>
    simp only [Bool.and_eq_true, beq_iff_eq, decide_eq_true_eq] at h
  all_goals try exact Bool.noConfusion h
  obtain ⟨⟨⟨⟨⟨⟨hd1, hd2⟩, hc3⟩, hd4⟩, hd5⟩, hh⟩, hm⟩ := h
  subst hc3
  refine ⟨c1, c2, c4, c5, rfl, hd1, hd2, hd4, hd5, hh, hm, ?_⟩
  rw [toMins, hs,
    splitColon_hhmm c1 c2 c4 c5 (isDigit_ne_colon hd1) (isDigit_ne_colon hd2)
      (isDigit_ne_colon hd4) (isDigit_ne_colon hd5)]
  simp [numberOf_two c1 c2 hd1 hd2, numberOf_two c4 c5 hd4 hd5]

theorem strLe_iff_toMins {a b : String} (ha : validHHMM a = true) (hb : validHHMM b = true) :
    strLe a b = true ↔ toMins a ≤ toMins b := by
  obtain ⟨x1, x2, x3, x4, hda, hx1, hx2, hx3, hx4, hhx, hmx, htma⟩ := validHHMM_shape ha
  obtain ⟨y1, y2, y3, y4, hdb, hy1, hy2, hy3, hy4, hhy, hmy, htmb⟩ := validHHMM_shape hb
  obtain ⟨hx1l, hx1u⟩ := isDigit_toNat hx1
  obtain ⟨hx2l, hx2u⟩ := isDigit_toNat hx2
  obtain ⟨hx3l, hx3u⟩ := isDigit_toNat hx3
  obtain ⟨hx4l, hx4u⟩ := isDigit_toNat hx4
  obtain ⟨hy1l, hy1u⟩ := isDigit_toNat hy1
  obtain ⟨hy2l, hy2u⟩ := isDigit_toNat hy2
  obtain ⟨hy3l, hy3u⟩ := isDigit_toNat hy3
  obtain ⟨hy4l, hy4u⟩ := isDigit_toNat hy4
  rw [strLe, hda, hdb, htma, htmb]
  simp only [dVal] at hhx hmx hhy hmy ⊢
  simp only [lexLe, lt_self_iff_false, if_false]
  split_ifs <;> ((try simp) <;> omega)

/-! ### Printing and reparsing minute values -/

theorem digitChar_isDigit : ∀ n : Nat, n < 10 → (Nat.digitChar n).isDigit = true := by decide

theorem dVal_digitChar : ∀ n : Nat, n < 10 → dVal (Nat.digitChar n) = (n : Int) := by decide

theorem natChars_small : ∀ n : Nat, n < 10 → natChars n = [Nat.digitChar n] := by decide

theorem natChars_mid :
    ∀ n : Nat, 10 ≤ n → n < 100 → natChars n = [Nat.digitChar (n / 10), Nat.digitChar (n % 10)] := by
  decide

theorem pad2_one (c : Char) : pad2 [c] = ['0', c] := by simp [pad2]

theorem pad2_two (c d : Char) : pad2 [c, d] = [c, d] := by simp [pad2]

theorem toMins_mk (a b c d : Char) (ha : a.isDigit = true) (hb : b.isDigit = true)
    (hc : c.isDigit = true) (hd : d.isDigit = true) :
    toMins ⟨[a, b, ':', c, d]⟩ = (10 * dVal a + dVal b) * 60 + (10 * dVal c + dVal d) := by
  rw [toMins]
  have hdata : (String.mk [a, b, ':', c, d]).data = [a, b, ':', c, d] := rfl
  rw [hdata, splitColon_hhmm a b c d (isDigit_ne_colon ha) (isDigit_ne_colon hb)
    (isDigit_ne_colon hc) (isDigit_ne_colon hd)]
  simp [numberOf_two a b ha hb, numberOf_two c d hc hd]

theorem pad2_natChars (n : Nat) (h : n < 100) :
    ∃ a b : Char, pad2 (natChars n) = [a, b] ∧ a.isDigit = true ∧ b.isDigit = true ∧
      10 * dVal a + dVal b = (n : Int) := by
  rcases Nat.lt_or_ge n 10 with h10 | h10
  · refine ⟨'0', Nat.digitChar n, ?_, by decide, digitChar_isDigit n h10, ?_⟩
    · rw [natChars_small n h10, pad2_one]
    · rw [dVal_digitChar n h10]
      have h0 : dVal '0' = 0 := by decide
      rw [h0]; ring
  · refine ⟨Nat.digitChar (n / 10), Nat.digitChar (n % 10), ?_,
      digitChar_isDigit _ (by omega), digitChar_isDigit _ (by omega), ?_⟩
    · rw [natChars_mid n h10 h, pad2_two]
    · rw [dVal_digitChar _ (by omega), dVal_digitChar _ (by omega)]
      push_cast
      omega

theorem toMins_fromMins (m : Nat) (hm : m < 1440) : toMins (fromMins m) = (m : Int) := by
  obtain ⟨a, b, hab, ha, hb, hvab⟩ := pad2_natChars (m / 60) (by omega)
  obtain ⟨c, d, hcd, hc, hd, hvcd⟩ := pad2_natChars (m % 60) (by omega)
  have hfm : fromMins m = ⟨[a, b, ':', c, d]⟩ := by
    rw [fromMins, hab, hcd]
    rfl
  rw [hfm, toMins_mk a b c d ha hb hc hd, hvab, hvcd]
  push_cast
  omega

/-! ### Fallback scheduler: fold lemmas and the placement invariant -/

theorem scanSlot_some {occ : List Window} {d c s : Int} {n : Nat}
    (h : scanSlot occ d c n = some s) :
    c ≤ s ∧ s + d ≤ 23 * 60 ∧ ∀ w ∈ occ, ¬ (s < w.wEnd ∧ w.wStart < s + d) := by
  induction n generalizing c with
  | zero => exact absurd h (by simp [scanSlot])
  | succ n ih =>
    rw [scanSlot] at h
    split at h
    · rename_i hcond
      have hcs : s = c := by simpa using h.symm
      subst hcs
      simp only [Bool.and_eq_true, Bool.not_eq_true', decide_eq_true_eq] at hcond
      obtain ⟨hclear, hend⟩ := hcond
      refine ⟨le_refl _, hend, ?_⟩
      intro w hw hover
      apply List.any_eq_false.mp hclear w hw
      simp only [Bool.and_eq_true, decide_eq_true_eq]
      exact ⟨hover.1, by omega⟩
    · have := ih h
      exact ⟨by omega, this.2.1, this.2.2⟩

theorem placed_map_id (l : List Task) :
    ∀ st : PlaceState, ((l.foldl placeStep st).placed).map Task.id =
      st.placed.map Task.id ++ l.map Task.id := by
  induction l with
  | nil => intro st; simp
  | cons t ts ih =>
    intro st
    rw [List.foldl_cons, ih]
    have hstep : (placeStep st t).placed.map Task.id = st.placed.map Task.id ++ [t.id] := by
      rw [placeStep]
      split
      · simp
      · split <;> simp [placedTask]
    rw [hstep]
    simp

theorem placed_prefix (l : List Task) :
    ∀ st : PlaceState, ∃ δ, (l.foldl placeStep st).placed = st.placed ++ δ := by
  induction l with
  | nil => intro st; exact ⟨[], by simp⟩
  | cons t ts ih =>
    intro st
    obtain ⟨δ, hδ⟩ := ih (placeStep st t)
    have hstep : ∃ a, (placeStep st t).placed = st.placed ++ [a] := by
      rw [placeStep]
      split
      · exact ⟨t, rfl⟩
      · split
        · exact ⟨_, rfl⟩
        · exact ⟨t, rfl⟩
    obtain ⟨a, ha⟩ := hstep
    exact ⟨[a] ++ δ, by rw [List.foldl_cons, hδ, ha, List.append_assoc]⟩

theorem mem_placed_of_nonpos (l : List Task) :
    ∀ st : PlaceState, ∀ t ∈ l, toMins t.endTime - toMins t.startTime ≤ 0 →
      t ∈ (l.foldl placeStep st).placed := by
  induction l with
  | nil => intro _ t ht; exact absurd ht (by simp)
  | cons x xs ih =>
    intro st t ht hdur
    rcases List.mem_cons.mp ht with rfl | ht
    · obtain ⟨δ, hδ⟩ := placed_prefix xs (placeStep st t)
      rw [List.foldl_cons, hδ, placeStep, if_pos hdur]
      simp
    · exact ih (placeStep st x) t ht hdur

theorem placeStep_nonpos (st : PlaceState) (t : Task)
    (hd : toMins t.endTime - toMins t.startTime ≤ 0) :
    placeStep st t = { st with placed := st.placed ++ [t] } := by
  simp [placeStep, hd]

theorem placeStep_none (st : PlaceState) (t : Task)
    (hd : ¬ toMins t.endTime - toMins t.startTime ≤ 0)
    (hscan : scanSlot st.occupied (toMins t.endTime - toMins t.startTime) st.cursor (24 * 4) =
      none) :
    placeStep st t = { st with placed := st.placed ++ [t] } := by
  simp [placeStep, hd, hscan]

theorem placeStep_some (st : PlaceState) (t : Task) (s : Int)
    (hd : ¬ toMins t.endTime - toMins t.startTime ≤ 0)
    (hscan : scanSlot st.occupied (toMins t.endTime - toMins t.startTime) st.cursor (24 * 4) =
      some s) :
    placeStep st t =
      { occupied := st.occupied ++ [⟨s, s + (toMins t.endTime - toMins t.startTime)⟩]
        cursor := s + (toMins t.endTime - toMins t.startTime)
        placed := st.placed ++ [placedTask t s (toMins t.endTime - toMins t.startTime)] } := by
  simp [placeStep, hd, hscan]

theorem placeStep_passthrough_inv {F : List Task} {occ0 : List Window} {st : PlaceState}
    {t : Task} (ht : t ∈ F) (hcur : 7 * 60 ≤ st.cursor)
    (hocc0 : ∀ w ∈ occ0, w ∈ st.occupied)
    (hmem : ∀ a ∈ st.placed, a ∈ F ∨ RewriteGood F occ0 st.occupied a)
    (hpw : st.placed.Pairwise fun a b => a ∈ F ∨ b ∈ F ∨ ¬ overlapT a b) :
    PlaceInv F occ0 { st with placed := st.placed ++ [t] } := by
  refine ⟨hcur, hocc0, ?_, ?_⟩
  · intro a ha
    rcases List.mem_append.mp ha with ha | ha
    · exact hmem a ha
    · have hat : a = t := by simpa using ha
      exact Or.inl (hat ▸ ht)
  · rw [List.pairwise_append]
    refine ⟨hpw, by simp, ?_⟩
    intro a _ b hb
    have hbt : b = t := by simpa using hb
    exact Or.inr (Or.inl (hbt ▸ ht))

theorem placeStep_inv {F : List Task} {occ0 : List Window} {st : PlaceState} {t : Task}
    (hF : ∀ u ∈ F, u.fixed = false) (ht : t ∈ F) (h : PlaceInv F occ0 st) :
    PlaceInv F occ0 (placeStep st t) := by
  obtain ⟨hcur, hocc0, hmem, hpw⟩ := h
  by_cases hd : toMins t.endTime - toMins t.startTime ≤ 0
  · rw [placeStep_nonpos st t hd]
    exact placeStep_passthrough_inv ht hcur hocc0 hmem hpw
  · rcases hscan : scanSlot st.occupied (toMins t.endTime - toMins t.startTime) st.cursor
      (24 * 4) with _ | s
    · rw [placeStep_none st t hd hscan]
      exact placeStep_passthrough_inv ht hcur hocc0 hmem hpw
    · rw [placeStep_some st t s hd hscan]
      obtain ⟨hcs, hend, hclear⟩ := scanSlot_some hscan
      have hdur : 0 < toMins t.endTime - toMins t.startTime := by omega
      have hs420 : 7 * 60 ≤ s := le_trans hcur hcs
      have hstart : toMins (fromMins s.toNat) = s := by
        rw [toMins_fromMins s.toNat (by omega)]
        exact Int.toNat_of_nonneg (by omega)
      have hstop : toMins (fromMins (s + (toMins t.endTime - toMins t.startTime)).toNat) =
          s + (toMins t.endTime - toMins t.startTime) := by
        rw [toMins_fromMins _ (by omega)]
        exact Int.toNat_of_nonneg (by omega)
      have hpstart : toMins (placedTask t s (toMins t.endTime - toMins t.startTime)).startTime
          = s := hstart
      have hpstop : toMins (placedTask t s (toMins t.endTime - toMins t.startTime)).endTime
          = s + (toMins t.endTime - toMins t.startTime) := hstop
      refine ⟨by simp; omega, ?_, ?_, ?_⟩
      · intro w hw
        simp only [List.mem_append]
        exact Or.inl (hocc0 w hw)
      · intro a ha
        rcases List.mem_append.mp ha with ha | ha
        · rcases hmem a ha with h1 | h1
          · exact Or.inl h1
          · refine Or.inr ⟨h1.1, h1.2.1, h1.2.2.1, h1.2.2.2.1, ?_, h1.2.2.2.2.2⟩
            simp only [List.mem_append]
            exact Or.inl h1.2.2.2.2.1
        · have ha' : a = placedTask t s (toMins t.endTime - toMins t.startTime) := by
            simpa using ha
          subst ha'
          refine Or.inr ⟨by simpa [placedTask] using hF t ht, ?_, ?_, ?_, ?_, ?_, ?_⟩
          · rw [hpstart]; exact hs420
          · rw [hpstop]; exact hend
          · rw [hpstart, hpstop]; omega
          · rw [hpstart, hpstop]
            simp only [List.mem_append]
            exact Or.inr (by simp)
          · intro w hw
            rw [hpstart, hpstop]
            exact hclear w (hocc0 w hw)
          · refine ⟨t, ht, by simp [placedTask], hdur, by rw [hpstart, hpstop]; omega⟩
      · rw [List.pairwise_append]
        refine ⟨hpw, by simp, ?_⟩
        intro a ha b hb
        have hb' : b = placedTask t s (toMins t.endTime - toMins t.startTime) := by
          simpa using hb
        subst hb'
        rcases hmem a ha with h1 | h1
        · exact Or.inl h1
        · refine Or.inr (Or.inr ?_)
          intro hov
          have hcl := hclear ⟨toMins a.startTime, toMins a.endTime⟩ h1.2.2.2.2.1
          rw [overlapT, hpstart, hpstop] at hov
          exact hcl ⟨hov.2, hov.1⟩

theorem fold_place_inv {F : List Task} {occ0 : List Window} (l : List Task)
    (hF : ∀ u ∈ F, u.fixed = false) :
    ∀ st : PlaceState, (∀ t ∈ l, t ∈ F) → PlaceInv F occ0 st →
      PlaceInv F occ0 (l.foldl placeStep st) := by
  induction l with
  | nil => intro st _ h; exact h
  | cons t ts ih =>
    intro st hl h
    exact ih (placeStep st t) (fun u hu => hl u (List.mem_cons_of_mem t hu))
      (placeStep_inv hF (hl t (List.mem_cons_self t ts)) h)

theorem fallbackRun_inv (state : PlannerState) :
    PlaceInv (state.tasks.filter fun t => !t.fixed) (occupiedOf state) (fallbackRun state) := by
  apply fold_place_inv
  · intro u hu
    simpa using (List.mem_filter.mp hu).2
  · intro t ht
    exact mem_sortBy.mp ht
  · exact ⟨by norm_num, fun w hw => hw, by simp, by simp⟩

theorem mem_fallback_tasks {state : PlannerState} {t : Task} :
    t ∈ (fallbackOptimize state).tasks ↔
      t ∈ (state.tasks.filter fun u => u.fixed) ∨ t ∈ (fallbackRun state).placed := by
  rw [fallbackOptimize]
  simp only [mem_sortBy, List.mem_append]

/-! ### Orchestrator: success-path characterisation and failure paths -/

theorem forall₂_mem_left {R : α → β → Prop} {l1 : List α} {l2 : List β} {a : α}
    (h : List.Forall₂ R l1 l2) (ha : a ∈ l1) : ∃ b ∈ l2, R a b := by
  induction h with
  | nil => exact absurd ha (by simp)
  | cons hr _ ih =>
    rcases List.mem_cons.mp ha with rfl | ha
    · exact ⟨_, by simp, hr⟩
    · obtain ⟨b, hb, hrb⟩ := ih ha
      exact ⟨b, List.mem_cons_of_mem _ hb, hrb⟩

theorem applyUpdateExc_fixed {updates : List Json} {t : Task} (h : t.fixed = true) :
    applyUpdateExc updates t = Except.ok t := by
  simp [applyUpdateExc, h]

theorem mapTasksExc_ok {updates : List Json} {tasks rs : List Task}
    (h : mapTasksExc updates tasks = Except.ok rs) :
    List.Forall₂ (fun t r => applyUpdateExc updates t = Except.ok r) tasks rs := by
  induction tasks generalizing rs with
  | nil =>
    obtain rfl : ([] : List Task) = rs := by simpa [mapTasksExc] using h
    exact List.Forall₂.nil
  | cons t ts ih =>
    rw [mapTasksExc] at h
    rcases happ : applyUpdateExc updates t with e | r <;> rw [happ] at h
    · exact absurd h (by simp)
    · rcases hrest : mapTasksExc updates ts with e | rs' <;> rw [hrest] at h
      · exact absurd h (by simp)
      · obtain rfl : r :: rs' = rs := by simpa using h
        exact List.Forall₂.cons happ (ih hrest)

theorem orchestrate_ok {state : PlannerState} {j : Json} {r : OptimizeResult}
    (h : orchestrate state j = Except.ok r) :
    ∃ updates, mapTasksExc updates state.tasks = Except.ok r.tasks := by
  rw [orchestrate] at h
  rcases h1 : jsGet j "tasks" with e | tf <;> rw [h1] at h <;> try simp at h
  rcases h2 : jsGet j "summary" with e | sf <;> rw [h2] at h <;> try simp at h
  rcases tf with _ | v <;> try simp at h
  rcases sf with _ | w
  · rcases v with _ | _ | _ | _ | updates | _ <;> simp at h
  rcases v with _ | _ | _ | _ | updates | _ <;> rcases w with _ | _ | _ | s | _ | _ <;>
    try simp at h
  refine ⟨updates, ?_⟩
  rcases hm : mapTasksExc updates state.tasks with e | ts <;> rw [hm] at h <;> try simp at h
  obtain rfl : ({ tasks := ts, summary := s } : OptimizeResult) = r := by
    simpa using h
  rfl

theorem jsGet_eq {p : Json} {k : String} (h : notNull p = true) :
    jsGet p k = Except.ok (jsField p k) := by
  cases p <;> simp_all [jsGet, jsField, notNull]

theorem findUpdate_mem_sat {id : String} {updates : List Json} {u : Json}
    (h : findUpdate id updates = some u) :
    u ∈ updates ∧ jsStrEq (jsField u "id") id = true := by
  induction updates with
  | nil => exact absurd h (by simp [findUpdate])
  | cons p ps ih =>
    rw [findUpdate] at h
    split at h
    · obtain rfl : p = u := by simpa using h
      exact ⟨by simp, by assumption⟩
    · obtain ⟨hm, hs⟩ := ih h
      exact ⟨List.mem_cons_of_mem _ hm, hs⟩

theorem notNull_of_idMatch {u : Json} {id : String}
    (h : jsStrEq (jsField u "id") id = true) : notNull u = true := by
  cases u <;> simp_all [jsField, jsStrEq, notNull]

theorem findUpdateExc_eq {id : String} {updates : List Json}
    (hnn : ∀ u ∈ updates, notNull u = true) :
    findUpdateExc id updates = Except.ok (findUpdate id updates) := by
  induction updates with
  | nil => rfl
  | cons p ps ih =>
    rw [findUpdateExc, findUpdate, jsGet_eq (hnn p (by simp))]
    by_cases hid : jsStrEq (jsField p "id") id = true
    · simp [hid]
    · simp only [Bool.not_eq_true] at hid
      simp [hid]
      exact ih fun u hu => hnn u (List.mem_cons_of_mem _ hu)

theorem applyUpdateExc_eq {updates : List Json} {t : Task}
    (hnn : ∀ u ∈ updates, notNull u = true) :
    applyUpdateExc updates t = Except.ok (applyUpdate updates t) := by
  rw [applyUpdateExc, applyUpdate]
  by_cases hfix : t.fixed
  · simp [hfix]
  · simp only [hfix, if_false, Bool.false_eq_true]
    rw [findUpdateExc_eq hnn]
    rcases hfd : findUpdate t.id updates with _ | u
    · rfl
    · have hu : notNull u = true := notNull_of_idMatch (findUpdate_mem_sat hfd).2
      by_cases hok : (hhmmShape (jsCoerce (jsField u "startTime")) &&
          hhmmShape (jsCoerce (jsField u "endTime"))) = true
      · simp [jsGet_eq hu, hok]
      · simp only [Bool.not_eq_true] at hok
        simp [jsGet_eq hu, hok]

theorem mapTasksExc_eq {updates : List Json} (tasks : List Task)
    (hnn : ∀ u ∈ updates, notNull u = true) :
    mapTasksExc updates tasks = Except.ok (tasks.map (applyUpdate updates)) := by
  induction tasks with
  | nil => rfl
  | cons t ts ih =>
    rw [mapTasksExc, applyUpdateExc_eq hnn, ih]
    simp

theorem orchestrate_success (state : PlannerState) (s : String) (updates : List Json)
    (hnn : ∀ u ∈ updates, notNull u = true) :
    orchestrate state (mkResponse s updates) =
      Except.ok { tasks := state.tasks.map (applyUpdate updates), summary := s } := by
  simp [orchestrate, mkResponse, jsGet, List.lookup, mapTasksExc_eq state.tasks hnn]

theorem optimizePlan_success (state : PlannerState) (s : String) (updates : List Json)
    (hnn : ∀ u ∈ updates, notNull u = true) :
    optimizePlan state (AdvisorResult.parsed (mkResponse s updates)) =
      { tasks := state.tasks.map (applyUpdate updates), summary := s } := by
  simp [optimizePlan, orchestrate_success state s updates hnn]

theorem orchestrate_badshape (state : PlannerState) (j : Json)
    (hbad : tasksIsArray j = false ∨ summaryIsString j = false) :
    orchestrate state j = Except.error () := by
  rw [orchestrate]
  cases j with
  | null => rfl
  | obj fields =>
    simp only [jsGet]
    simp only [tasksIsArray, summaryIsString, jsField] at hbad
    rcases h1 : fields.lookup "tasks" with _ | v
    case none => rfl
    case some =>
      rw [h1] at hbad
      cases v with
      | arr updates =>
        rcases hbad with hbad | hbad
        · exact absurd hbad (by simp)
        · rcases h2 : fields.lookup "summary" with _ | w
          case none => rfl
          case some =>
            rw [h2] at hbad
            cases w <;> first | rfl | simp_all
      | null => rfl
      | bool b => rfl
      | num n => rfl
      | str t => rfl
      | obj o => rfl
  | bool b => rfl
  | num n => rfl
  | str t => rfl
  | arr l => rfl

/-! ## Claim theorems -/

/-- C1: Fixed-task immunity.  For every input task set and every advisor
response, every task with `fixed = true` appears in the output of both the
Local Fallback Scheduler (`fallbackOptimize`) and the Plan Optimization
Orchestrator (`optimizePlanWithOllama`, embedded as `optimizePlan`) with
`startTime` and `endTime` identical to its input values (the exact record is
a member of both outputs), regardless of what updates the advisor proposes
for it. -/
theorem fixedTaskImmunity (state : PlannerState) (adv : AdvisorResult) :
    ∀ t ∈ state.tasks, t.fixed = true →
      t ∈ (fallbackOptimize state).tasks ∧ t ∈ (optimizePlan state adv).tasks := by
  intro t ht hfix
  have hffix : t ∈ state.tasks.filter fun u => u.fixed := List.mem_filter.mpr ⟨ht, hfix⟩
  have hfb : t ∈ (fallbackOptimize state).tasks := mem_fallback_tasks.mpr (Or.inl hffix)
  refine ⟨hfb, ?_⟩
  cases adv with
  | threw => exact hfb
  | parseFailed => exact hfb
  | parsed j =>
    rw [optimizePlan]
    rcases ho : orchestrate state j with e | r
    · exact hfb
    · obtain ⟨updates, hm⟩ := orchestrate_ok ho
      obtain ⟨b, hb, hrb⟩ := forall₂_mem_left (mapTasksExc_ok hm) ht
      rw [applyUpdateExc_fixed hfix] at hrb
      obtain rfl : t = b := by simpa using hrb
      exact hb

/-- Witness for C1: a concrete fixed task survives both paths even when the
advisor proposes new times for it. -/
theorem fixedTaskImmunity_witness :
    fixedF ∈ (fallbackOptimize ⟨[], [fixedF, taskA]⟩).tasks ∧
    fixedF ∈ (optimizePlan ⟨[], [fixedF, taskA]⟩
      (AdvisorResult.parsed (mkResponse "move" [updObj "f" "10:00" "11:00"]))).tasks :=
  fixedTaskImmunity ⟨[], [fixedF, taskA]⟩
    (AdvisorResult.parsed (mkResponse "move" [updObj "f" "10:00" "11:00"]))
    fixedF (by decide) (by decide)

/-- C6: Orchestrator failure transparency.  If the advisor call throws or is
unreachable, no JSON object parses from its reply, or the parsed structure's
`tasks` field is not an array or its `summary` is not a string, then
`optimizePlan` returns exactly `fallbackOptimize` of the same state (and, the
embedding being a total function, no exception escapes). -/
theorem orchestratorFailureTransparency (state : PlannerState) (adv : AdvisorResult)
    (h : adv = AdvisorResult.threw ∨ adv = AdvisorResult.parseFailed ∨
      ∃ j, adv = AdvisorResult.parsed j ∧
        (tasksIsArray j = false ∨ summaryIsString j = false)) :
    optimizePlan state adv = fallbackOptimize state := by
  rcases h with rfl | rfl | ⟨j, rfl, hbad⟩
  · rfl
  · rfl
  · rw [optimizePlan, orchestrate_badshape state j hbad]

/-- Witness for C6: a response whose `tasks` field is a string degrades to the
fallback result. -/
theorem orchestratorFailureTransparency_witness :
    optimizePlan ⟨[], [taskA]⟩
      (AdvisorResult.parsed (Json.obj [("summary", Json.str "ok"), ("tasks", Json.str "no")])) =
      fallbackOptimize ⟨[], [taskA]⟩ :=
  orchestratorFailureTransparency ⟨[], [taskA]⟩
    (AdvisorResult.parsed (Json.obj [("summary", Json.str "ok"), ("tasks", Json.str "no")]))
    (Or.inr (Or.inr ⟨Json.obj [("summary", Json.str "ok"), ("tasks", Json.str "no")],
      rfl, by decide⟩))

/-- C10 (implicit): validation is format-only.  There is an advisor response
whose updates all match `HH:MM` and reference a known flexible task id, which
`optimizePlan` applies verbatim even though the result places the flexible
task outside the 07:00–22:00 window and overlapping a fixed task's interval:
the window and no-overlap rules live only in the prompt, not in validation. -/
theorem validationFormatOnly :
    ({ flexX with startTime := "22:30", endTime := "23:30" } ∈
      (optimizePlan ⟨[], [fixedF, flexX]⟩
        (AdvisorResult.parsed (mkResponse "ok" [updObj "x" "22:30" "23:30"]))).tasks) ∧
    hhmmShape "22:30" = true ∧ hhmmShape "23:30" = true ∧
    22 * 60 < toMins "23:30" ∧
    overlapT { flexX with startTime := "22:30", endTime := "23:30" } fixedF ∧
    fixedF.fixed = true ∧ fixedF ∈ (⟨[], [fixedF, flexX]⟩ : PlannerState).tasks := by
  decide

/-- C2 counterexample: an advisor update for flexible `taskA` (09:00–10:00)
whose times `09:00`–`09:30` both match `HH:MM` but halve the duration is
applied, not rejected — the task's original times are not retained. -/
theorem advisorDurationChange_cex :
    hhmmShape "09:00" = true ∧ hhmmShape "09:30" = true ∧
    toMins "09:30" - toMins "09:00" ≠ toMins taskA.endTime - toMins taskA.startTime ∧
    (optimizePlan ⟨[], [taskA]⟩
      (AdvisorResult.parsed (mkResponse "ok" [updObj "a" "09:00" "09:30"]))).tasks =
      [{ taskA with startTime := "09:00", endTime := "09:30" }] ∧
    ({ taskA with startTime := "09:00", endTime := "09:30" } : Task) ≠ taskA := by
  decide

/-- C2 amended: an advisor update whose `startTime` and `endTime` both match
the `HH:MM` format is applied verbatim to its flexible task even when its
implied duration differs from the task's original duration; only the time
format is validated, so original times are retained only on a format
failure. -/
theorem advisorDurationChangeApplied (state : PlannerState) (s : String) (updates : List Json)
    (hnn : ∀ u ∈ updates, notNull u = true) :
    ∀ t ∈ state.tasks, t.fixed = false → ∀ u, findUpdate t.id updates = some u →
      hhmmShape (jsCoerce (jsField u "startTime")) = true →
      hhmmShape (jsCoerce (jsField u "endTime")) = true →
      { t with startTime := jsCoerce (jsField u "startTime")
               endTime := jsCoerce (jsField u "endTime") } ∈
        (optimizePlan state (AdvisorResult.parsed (mkResponse s updates))).tasks := by
  intro t ht hfix u hfd hs he
  rw [optimizePlan_success state s updates hnn]
  refine List.mem_map.mpr ⟨t, ht, ?_⟩
  rw [applyUpdate]
  simp [hfix, hfd, hs, he]

/-- Witness for the amended C2: the duration-halving update of the
counterexample is indeed applied through the success path. -/
theorem advisorDurationChangeApplied_witness :
    { taskA with startTime := "09:00", endTime := "09:30" } ∈
      (optimizePlan ⟨[], [taskA]⟩
        (AdvisorResult.parsed (mkResponse "ok" [updObj "a" "09:00" "09:30"]))).tasks :=
  advisorDurationChangeApplied ⟨[], [taskA]⟩ "ok" [updObj "a" "09:00" "09:30"]
    (by decide) taskA (by decide) (by decide) (updObj "a" "09:00" "09:30") rfl
    (by decide) (by decide)

/-- C8: Fallback totality and passthrough.  `fallbackOptimize` is a total
function (it is a Lean `def`, so it never errors); the multiset of output
task ids is a permutation of the input ids; every flexible task with
non-positive duration passes through unchanged; and a flexible task for which
the 96-step scan finds no slot is appended to the output unchanged. -/
theorem fallbackTotalityPassthrough (state : PlannerState) :
    List.Perm ((fallbackOptimize state).tasks.map Task.id) (state.tasks.map Task.id) ∧
    (∀ t ∈ state.tasks, t.fixed = false → toMins t.endTime - toMins t.startTime ≤ 0 →
      t ∈ (fallbackOptimize state).tasks) ∧
    (∀ (st : PlaceState) (t : Task), ¬ toMins t.endTime - toMins t.startTime ≤ 0 →
      scanSlot st.occupied (toMins t.endTime - toMins t.startTime) st.cursor (24 * 4) = none →
      placeStep st t = { st with placed := st.placed ++ [t] }) := by
  refine ⟨?_, ?_, fun st t => placeStep_none st t⟩
  · have h1 : List.Perm ((fallbackOptimize state).tasks.map Task.id)
        (((state.tasks.filter fun t => t.fixed) ++ (fallbackRun state).placed).map Task.id) :=
      (sortBy_perm taskLe _).map Task.id
    have h2 : (fallbackRun state).placed.map Task.id = (sortedFlexOf state).map Task.id := by
      simpa using placed_map_id (sortedFlexOf state) ⟨occupiedOf state, 7 * 60, []⟩
    have h3 : List.Perm ((sortedFlexOf state).map Task.id)
        ((state.tasks.filter fun t => !t.fixed).map Task.id) :=
      (sortBy_perm taskLe _).map Task.id
    have h4 : List.Perm
        (((state.tasks.filter fun t => t.fixed) ++
          (state.tasks.filter fun t => !t.fixed)).map Task.id)
        (state.tasks.map Task.id) :=
      (List.filter_append_perm _ state.tasks).map Task.id
    refine h1.trans ?_
    rw [List.map_append, h2]
    refine List.Perm.trans ?_ h4
    rw [List.map_append]
    exact List.Perm.append_left _ h3
  · intro t ht hfix hdur
    have htf : t ∈ state.tasks.filter fun u => !u.fixed :=
      List.mem_filter.mpr ⟨ht, by simp [hfix]⟩
    have hts : t ∈ sortedFlexOf state := mem_sortBy.mpr htf
    have hplaced := mem_placed_of_nonpos (sortedFlexOf state)
      ⟨occupiedOf state, 7 * 60, []⟩ t hts hdur
    exact mem_fallback_tasks.mpr (Or.inr (by simpa [fallbackRun] using hplaced))

/-- Witness for C8: a zero-duration flexible task passes through the fallback
scheduler unchanged. -/
theorem fallbackTotalityPassthrough_witness :
    flexZero ∈ (fallbackOptimize ⟨[], [fixedG, flexZero]⟩).tasks :=
  (fallbackTotalityPassthrough ⟨[], [fixedG, flexZero]⟩).2.1 flexZero (by decide)
    (by decide) (by decide)

/-- C4: Fallback duration preservation and placement window.  Every output
task of `fallbackOptimize` either is an input task left unchanged, or is a
placement of a flexible input task of positive duration: same id, exactly the
input duration, start at or after 07:00 (the initial cursor) and end at or
before 23:00. -/
theorem fallbackPlacementWindow (state : PlannerState)
    (_hv : ∀ t ∈ state.tasks, validHHMM t.startTime = true ∧ validHHMM t.endTime = true) :
    ∀ t' ∈ (fallbackOptimize state).tasks, t' ∈ state.tasks ∨
      (7 * 60 ≤ toMins t'.startTime ∧ toMins t'.endTime ≤ 23 * 60 ∧
        toMins t'.startTime < toMins t'.endTime ∧
        ∃ t ∈ state.tasks, t.fixed = false ∧ t'.id = t.id ∧
          0 < toMins t.endTime - toMins t.startTime ∧
          toMins t'.endTime - toMins t'.startTime =
            toMins t.endTime - toMins t.startTime) := by
  intro t' ht'
  rcases mem_fallback_tasks.mp ht' with h | h
  · exact Or.inl (List.mem_filter.mp h).1
  · rcases (fallbackRun_inv state).2.2.1 t' h with h1 | h1
    · exact Or.inl (List.mem_filter.mp h1).1
    · obtain ⟨_, hs, he, hlt, _, _, t, htF, hid, hdur, hdeq⟩ := h1
      exact Or.inr ⟨hs, he, hlt, t, (List.mem_filter.mp htF).1, by
        simpa using (List.mem_filter.mp htF).2, hid, hdur, hdeq⟩

/-- Witness for C4: in a state with fixed 08:00–09:00 and flexible
10:00–10:30, the record placed at 07:00–07:30 satisfies the placement
properties. -/
theorem fallbackPlacementWindow_witness :
    placedX ∈ (⟨[], [fixedG, flexX]⟩ : PlannerState).tasks ∨
      (7 * 60 ≤ toMins placedX.startTime ∧ toMins placedX.endTime ≤ 23 * 60 ∧
        toMins placedX.startTime < toMins placedX.endTime ∧
        ∃ t ∈ (⟨[], [fixedG, flexX]⟩ : PlannerState).tasks, t.fixed = false ∧
          placedX.id = t.id ∧ 0 < toMins t.endTime - toMins t.startTime ∧
          toMins placedX.endTime - toMins placedX.startTime =
            toMins t.endTime - toMins t.startTime) :=
  fallbackPlacementWindow ⟨[], [fixedG, flexX]⟩ (by decide) placedX (by decide)

/-- C3 counterexample: with two overlapping fixed tasks in the input, the
output of `fallbackOptimize` contains two distinct tasks of the claimed
conflict-free set (all fixed tasks together with placed flexible tasks)
whose half-open intervals overlap. -/
theorem fallbackConflictFreedom_cex :
    fixedG ∈ (fallbackOptimize ⟨[], [fixedG, fixedH]⟩).tasks ∧
    fixedH ∈ (fallbackOptimize ⟨[], [fixedG, fixedH]⟩).tasks ∧
    fixedG ≠ fixedH ∧ fixedG.fixed = true ∧ fixedH.fixed = true ∧
    overlapT fixedG fixedH := by
  decide

/-- C3 amended: in the output of `fallbackOptimize`, every flexible task that
was rewritten to a new interval (an output task that is not an input task)
overlaps neither any fixed task nor any other rewritten task; only pairs of
fixed tasks may still overlap, when they already did in the input. -/
theorem fallbackConflictFreedomAmended (state : PlannerState)
    (_hv : ∀ t ∈ state.tasks, validHHMM t.startTime = true ∧ validHHMM t.endTime = true) :
    ∀ t' ∈ (fallbackOptimize state).tasks, t' ∉ state.tasks →
      ∀ u ∈ (fallbackOptimize state).tasks, u ≠ t' → (u.fixed = true ∨ u ∉ state.tasks) →
        ¬ overlapT t' u := by
  intro t' ht' hnt u hu hne hcase
  obtain ⟨hcur, hocc0, hmem, hpw⟩ := fallbackRun_inv state
  have ht'p : t' ∈ (fallbackRun state).placed := by
    rcases mem_fallback_tasks.mp ht' with h | h
    · exact absurd (List.mem_filter.mp h).1 hnt
    · exact h
  have ht'rw : RewriteGood (state.tasks.filter fun t => !t.fixed) (occupiedOf state)
      (fallbackRun state).occupied t' := by
    rcases hmem t' ht'p with h | h
    · exact absurd (List.mem_filter.mp h).1 hnt
    · exact h
  rcases hcase with hfix | hnu
  · have hufilter : u ∈ state.tasks.filter fun t => t.fixed := by
      rcases mem_fallback_tasks.mp hu with h | h
      · exact h
      · exfalso
        rcases hmem u h with h1 | h1
        · have := (List.mem_filter.mp h1).2
          simp [hfix] at this
        · rw [h1.1] at hfix
          exact absurd hfix (by simp)
    have hwin : (⟨toMins u.startTime, toMins u.endTime⟩ : Window) ∈ occupiedOf state :=
      List.mem_map.mpr ⟨u, hufilter, rfl⟩
    have hclear := ht'rw.2.2.2.2.2.1 _ hwin
    intro hov
    exact hclear ⟨hov.1, hov.2⟩
  · have hup : u ∈ (fallbackRun state).placed := by
      rcases mem_fallback_tasks.mp hu with h | h
      · exact absurd (List.mem_filter.mp h).1 hnu
      · exact h
    have hsym : Symmetric (fun a b : Task =>
        a ∈ (state.tasks.filter fun t => !t.fixed) ∨
        b ∈ (state.tasks.filter fun t => !t.fixed) ∨ ¬ overlapT a b) := by
      intro a b hab
      rcases hab with h | h | h
      · exact Or.inr (Or.inl h)
      · exact Or.inl h
      · exact Or.inr (Or.inr fun hov => h ⟨hov.2, hov.1⟩)
    have hR := hpw.forall hsym ht'p hup fun he => hne he.symm
    rcases hR with h | h | h
    · exact absurd (List.mem_filter.mp h).1 hnt
    · exact absurd (List.mem_filter.mp h).1 hnu
    · exact h

/-- Witness for the amended C3: the placed task 07:00–07:30 does not overlap
the fixed task 08:00–09:00. -/
theorem fallbackConflictFreedomAmended_witness : ¬ overlapT placedX fixedG :=
  fallbackConflictFreedomAmended ⟨[], [fixedG, flexX]⟩ (by decide) placedX (by decide)
    (by decide) fixedG (by decide) (by decide) (Or.inl rfl)

/-- C7: Orchestrator partial-update rejection.  For a parsed advisor response
`{ summary, tasks: updates }`, the result pairs each input task with its
output: fixed tasks are untouched; a flexible task with no matching update —
in particular when updates reference only unknown ids, which are thereby
ignored — keeps its original times; a flexible task whose first matching
update has a time failing `/^\d{2}:\d{2}$/` keeps its original times; and one
whose matching update is well-formed gets exactly the update's times.  The
pairing also shows no task is created or dropped. -/
theorem orchestratorPartialUpdate (state : PlannerState) (s : String) (updates : List Json)
    (hnn : ∀ u ∈ updates, notNull u = true) :
    List.Forall₂ (fun t r =>
      (t.fixed = true → r = t) ∧
      (t.fixed = false → findUpdate t.id updates = none → r = t) ∧
      (∀ u, t.fixed = false → findUpdate t.id updates = some u →
        (hhmmShape (jsCoerce (jsField u "startTime")) = false ∨
         hhmmShape (jsCoerce (jsField u "endTime")) = false) → r = t) ∧
      (∀ u, t.fixed = false → findUpdate t.id updates = some u →
        hhmmShape (jsCoerce (jsField u "startTime")) = true →
        hhmmShape (jsCoerce (jsField u "endTime")) = true →
        r = { t with startTime := jsCoerce (jsField u "startTime")
                     endTime := jsCoerce (jsField u "endTime") }))
      state.tasks
      (optimizePlan state (AdvisorResult.parsed (mkResponse s updates))).tasks := by
  rw [optimizePlan_success state s updates hnn]
  show List.Forall₂ _ state.tasks (state.tasks.map (applyUpdate updates))
  generalize state.tasks = l
  induction l with
  | nil => exact List.Forall₂.nil
  | cons t ts ih =>
    refine List.Forall₂.cons ?_ ih
    refine ⟨fun hfix => by simp [applyUpdate, hfix], ?_, ?_, ?_⟩
    · intro hfix hfd
      simp [applyUpdate, hfix, hfd]
    · intro u hfix hfd hbad
      rcases hbad with hbad | hbad <;> simp [applyUpdate, hfix, hfd, hbad]
    · intro u hfix hfd hs he
      simp [applyUpdate, hfix, hfd, hs, he]

/-- Witness for C7: two flexible tasks, one update with a malformed time
(`9:00`) and one well-formed; only the malformed update's task keeps its
original times, the well-formed one is applied. -/
theorem orchestratorPartialUpdate_witness :
    List.Forall₂ (fun t r =>
      (t.fixed = true → r = t) ∧
      (t.fixed = false →
        findUpdate t.id [updObj "a" "9:00" "10:00", updObj "b" "13:00" "14:00"] = none →
        r = t) ∧
      (∀ u, t.fixed = false →
        findUpdate t.id [updObj "a" "9:00" "10:00", updObj "b" "13:00" "14:00"] = some u →
        (hhmmShape (jsCoerce (jsField u "startTime")) = false ∨
         hhmmShape (jsCoerce (jsField u "endTime")) = false) → r = t) ∧
      (∀ u, t.fixed = false →
        findUpdate t.id [updObj "a" "9:00" "10:00", updObj "b" "13:00" "14:00"] = some u →
        hhmmShape (jsCoerce (jsField u "startTime")) = true →
        hhmmShape (jsCoerce (jsField u "endTime")) = true →
        r = { t with startTime := jsCoerce (jsField u "startTime")
                     endTime := jsCoerce (jsField u "endTime") }))
      (⟨[], [taskA, taskB]⟩ : PlannerState).tasks
      (optimizePlan ⟨[], [taskA, taskB]⟩
        (AdvisorResult.parsed (mkResponse "ok"
          [updObj "a" "9:00" "10:00", updObj "b" "13:00" "14:00"]))).tasks :=
  orchestratorPartialUpdate ⟨[], [taskA, taskB]⟩ "ok"
    [updObj "a" "9:00" "10:00", updObj "b" "13:00" "14:00"] (by decide)

/-! ### Drag controller lemmas -/

theorem clamp_near (a b x0 δ : ℚ) (ha : a ≤ x0) (hb : x0 ≤ b) :
    |max a (min b (x0 + δ)) - x0| ≤ |δ| := by
  have h0 : (0 : ℚ) ≤ |δ| := abs_nonneg δ
  have h1 : -|δ| ≤ δ := neg_abs_le δ
  have h2 : δ ≤ |δ| := le_abs_self δ
  rcases max_cases a (min b (x0 + δ)) with ⟨h3, h4⟩ | ⟨h3, h4⟩ <;>
    rcases min_cases b (x0 + δ) with ⟨h5, h6⟩ | ⟨h5, h6⟩ <;>
    rw [h3] <;> (try rw [h5]) <;> rw [abs_le] <;> constructor <;> linarith

theorem round_five_near (k : Int) (ε : ℚ) (hε : |ε| < 5 / 2) :
    round ((((5 * k : Int) : ℚ) + ε) / 5) * 5 = 5 * k := by
  have h5 : (((5 * k : Int) : ℚ) + ε) / 5 = ε / 5 + (k : ℚ) := by push_cast; ring
  have hz : round (ε / 5) = 0 := by
    rw [round_eq_zero_iff, Set.mem_Ico]
    obtain ⟨hl, hr⟩ := abs_lt.mp hε
    constructor
    · linarith
    · linarith
  rw [h5, round_add_int, hz]
  ring

theorem smoothed_eq (orig dur : Int) (δ : ℚ) (halign : (5 : Int) ∣ orig)
    (hlo : (6 * 60 : Int) ≤ orig) (hhi : orig + dur ≤ 23 * 60) (hδ : |δ| < 5 / 2) :
    round ((max (6 * 60 : ℚ) (min ((23 * 60 : ℚ) - (dur : ℚ)) ((orig : ℚ) + δ))) / 5) * 5 =
      orig := by
  obtain ⟨k, rfl⟩ := halign
  have ha : (6 * 60 : ℚ) ≤ ((5 * k : Int) : ℚ) := by exact_mod_cast hlo
  have hb : ((5 * k : Int) : ℚ) ≤ (23 * 60 : ℚ) - (dur : ℚ) := by
    have : ((5 * k + dur : Int) : ℚ) ≤ ((23 * 60 : Int) : ℚ) := by exact_mod_cast hhi
    push_cast at this ⊢
    linarith
  have hnear := clamp_near (6 * 60) ((23 * 60 : ℚ) - (dur : ℚ)) ((5 * k : Int) : ℚ) δ ha hb
  have hdecomp : max (6 * 60 : ℚ) (min ((23 * 60 : ℚ) - (dur : ℚ)) (((5 * k : Int) : ℚ) + δ)) =
      ((5 * k : Int) : ℚ) +
        (max (6 * 60 : ℚ) (min ((23 * 60 : ℚ) - (dur : ℚ)) (((5 * k : Int) : ℚ) + δ)) -
          ((5 * k : Int) : ℚ)) := by
    ring
  rw [hdecomp, round_five_near k _ (lt_of_le_of_lt hnear hδ)]

theorem applyDragFrame_click (task : Task) (y0 y : ℚ)
    (hmove : |y - y0| < 3)
    (hstart : task.startTime = fromMins (toMins task.startTime).toNat)
    (hend : task.endTime = fromMins (toMins task.endTime).toNat)
    (halign : (5 : Int) ∣ toMins task.startTime)
    (hlo : 6 * 60 ≤ toMins task.startTime)
    (hdur : 15 ≤ toMins task.endTime - toMins task.startTime)
    (hhi : toMins task.endTime ≤ 23 * 60) :
    applyDragFrame (mkDrag task y0) task y = (mkDrag task y0, task) := by
  have hdmax : max (15 : Int) (toMins task.endTime - toMins task.startTime) =
      toMins task.endTime - toMins task.startTime := max_eq_right hdur
  have hδ : |(y - y0) / (11 / 5)| < 5 / 2 := by
    rw [abs_div]
    have h115 : |(11 / 5 : ℚ)| = 11 / 5 := by norm_num [abs_of_pos]
    rw [h115]
    rw [div_lt_iff (by norm_num)]
    linarith
  have hsm := smoothed_eq (toMins task.startTime)
    (toMins task.endTime - toMins task.startTime) ((y - y0) / (11 / 5)) halign hlo
    (by omega) hδ
  have hmv : decide (3 < |y - y0|) = false := by
    simp only [decide_eq_false_iff_not, not_lt]
    linarith
  rw [applyDragFrame, mkDrag]
  simp only [hdmax, hmv, Bool.or_false, ne_eq, not_true_eq_false, if_false, ite_false,
    reduceIte]
  rw [hsm]
  have hse : toMins task.startTime + (toMins task.endTime - toMins task.startTime) =
      toMins task.endTime := by ring
  rw [hse, ← hstart, ← hend]

theorem applyDragFrame_eval (drag : DragState) (task : Task) (y : ℚ)
    (hid : drag.taskId = task.id) (m : Bool) (c : Int)
    (hm : (drag.moved || decide (3 < |y - drag.startClientY|)) = m)
    (hc : round ((max (6 * 60 : ℚ) (min ((23 * 60 : ℚ) - (drag.duration : ℚ))
        ((drag.originalStart : ℚ) + (y - drag.startClientY) / (11 / 5)))) / 5) * 5 = c) :
    applyDragFrame drag task y =
      ({ drag with moved := m, currentStart := c },
       { task with startTime := fromMins c.toNat
                   endTime := fromMins (c + drag.duration).toNat }) := by
  subst hm hc
  rw [applyDragFrame, if_neg (by simp [hid])]

theorem dragTaskOff_start : toMins dragTaskOff.startTime = 547 := by decide

theorem dragTaskOff_stop : toMins dragTaskOff.endTime = 557 := by decide

theorem runGesture_off_eval :
    runGesture dragTaskOff 0 [1] =
      ({ dragTaskOff with startTime := "09:05", endTime := "09:20" }, true) := by
  have hdur : max (15 : Int) (557 - 547) = 15 := by decide
  have h1 := applyDragFrame_eval (mkDrag dragTaskOff 0) dragTaskOff 1 rfl false 545
    (by simp only [mkDrag]; norm_num)
    (by
      simp only [mkDrag, dragTaskOff_start, dragTaskOff_stop, hdur]
      push_cast
      have hmin : min ((23 * 60 : ℚ) - 15) (547 + (1 - 0) / (11 / 5)) = 6022 / 11 := by
        rw [min_eq_right] <;> norm_num
      have hmax : max (6 * 60 : ℚ) (6022 / 11) = 6022 / 11 := by
        rw [max_eq_right] <;> norm_num
      rw [hmin, hmax]
      norm_num [round_eq])
  rw [runGesture, List.foldl_cons, List.foldl_nil, h1]
  rw [dragMouseUp, if_neg (by simp)]
  have hst : fromMins ((545 : Int)).toNat = "09:05" := by decide
  have hen : fromMins ((545 : Int) + (mkDrag dragTaskOff 0).duration).toNat = "09:20" := by
    simp only [mkDrag, hdur]
    decide
  rw [hst, hen]

/-- C9 counterexample: a drag gesture on the 09:07–09:17 task whose single
pointer movement is 1 px — below the 3 px click threshold — ends as a click
(the edit modal opens, the snap-commit branch is skipped), yet the task's
stored times are no longer the values at gesture start: the live-preview
frame rounded them onto the 5-minute grid and applied the 15-minute duration
floor, leaving 09:05–09:20. -/
theorem dragSubThresholdClick_cex :
    (|(1 : ℚ) - 0| < 3) ∧
    (runGesture dragTaskOff 0 [1]).2 = true ∧
    dragTaskOff.startTime = "09:07" ∧ dragTaskOff.endTime = "09:17" ∧
    (runGesture dragTaskOff 0 [1]).1.startTime = "09:05" ∧
    (runGesture dragTaskOff 0 [1]).1.endTime = "09:20" := by
  refine ⟨by norm_num, ?_, rfl, rfl, ?_, ?_⟩ <;> rw [runGesture_off_eval]

/-- C9 amended: a drag gesture whose pointer movement stays below the 3 px
click threshold opens the task for editing and does not run the snap-commit,
and the task's stored `startTime`/`endTime` are unchanged from their values
at gesture start provided the live preview is a no-op on them: the start lies
on the 5-minute grid, the interval sits inside the drag clamp window
(`TIMELINE_START` 06:00 to `TIMELINE_END` 23:00), the duration is at least
the 15-minute drag floor, and the stored strings are canonical `HH:MM`. -/
theorem dragSubThresholdClickAmended (task : Task) (y0 : ℚ) (frames : List ℚ)
    (hmove : ∀ y ∈ frames, |y - y0| < 3)
    (hstart : task.startTime = fromMins (toMins task.startTime).toNat)
    (hend : task.endTime = fromMins (toMins task.endTime).toNat)
    (halign : (5 : Int) ∣ toMins task.startTime)
    (hlo : 6 * 60 ≤ toMins task.startTime)
    (hdur : 15 ≤ toMins task.endTime - toMins task.startTime)
    (hhi : toMins task.endTime ≤ 23 * 60) :
    runGesture task y0 frames = (task, true) := by
  have hfold : ∀ fs : List ℚ, (∀ y ∈ fs, |y - y0| < 3) →
      fs.foldl (fun (p : DragState × Task) y => applyDragFrame p.1 p.2 y)
        (mkDrag task y0, task) = (mkDrag task y0, task) := by
    intro fs
    induction fs with
    | nil => intro _; rfl
    | cons y ys ih =>
      intro hm
      rw [List.foldl_cons]
      have hstep : applyDragFrame (mkDrag task y0) task y = (mkDrag task y0, task) :=
        applyDragFrame_click task y0 y (hm y (by simp)) hstart hend halign hlo hdur hhi
      rw [show applyDragFrame (mkDrag task y0, task).1 (mkDrag task y0, task).2 y =
        (mkDrag task y0, task) from hstep]
      exact ih fun z hz => hm z (List.mem_cons_of_mem _ hz)
  rw [runGesture, hfold frames hmove]
  simp [dragMouseUp, mkDrag]

/-- Witness for the amended C9: a 1 px gesture on the aligned 09:05–09:35
task leaves it untouched and opens the editor. -/
theorem dragSubThresholdClickAmended_witness :
    runGesture dragTaskOn 0 [1] = (dragTaskOn, true) :=
  dragSubThresholdClickAmended dragTaskOn 0 [1] (by norm_num) (by decide) (by decide)
    (by decide) (by decide) (by decide) (by decide)

/-! ### Lane assignment: group building -/

theorem le_foldl_max (l : List Int) (a : Int) : a ≤ l.foldl max a := by
  induction l generalizing a with
  | nil => exact le_refl a
  | cons b bs ih => exact le_trans (le_max_left a b) (ih (max a b))

theorem mem_le_foldl_max (l : List Int) (a : Int) : ∀ x ∈ l, x ≤ l.foldl max a := by
  induction l generalizing a with
  | nil => simp
  | cons b bs ih =>
    intro x hx
    rcases List.mem_cons.mp hx with rfl | hx
    · exact le_trans (le_max_right a x) (le_foldl_max bs (max a x))
    · exact ih (max a b) x hx

theorem foldl_max_mem (l : List Int) (a : Int) : l.foldl max a = a ∨ l.foldl max a ∈ l := by
  induction l generalizing a with
  | nil => exact Or.inl rfl
  | cons b bs ih =>
    rcases ih (max a b) with h | h
    · rcases max_cases a b with ⟨h1, _⟩ | ⟨h1, _⟩
      · exact Or.inl (by rw [List.foldl_cons, h, h1])
      · exact Or.inr (by rw [List.foldl_cons, h, h1]; simp)
    · exact Or.inr (by simp [h])

theorem joinCond_false_iff {g : List Task} {t : Task} :
    joinCond g t = false ↔ ∀ u ∈ g, toMins u.endTime ≤ toMins t.startTime := by
  cases g with
  | nil => simp [joinCond, maxEndOf]
  | cons x xs =>
    rw [joinCond, maxEndOf]
    simp only [decide_eq_false_iff_not, not_lt]
    constructor
    · intro h u hu
      rcases List.mem_cons.mp hu with rfl | hu
      · exact le_trans (le_foldl_max _ _) h
      · exact le_trans
          (mem_le_foldl_max (xs.map fun u => toMins u.endTime) (toMins x.endTime)
            (toMins u.endTime) (List.mem_map_of_mem (fun u => toMins u.endTime) hu)) h
    · intro h
      rcases foldl_max_mem ((xs.map fun u => toMins u.endTime)) (toMins x.endTime) with hm | hm
      · rw [hm]
        exact h x (by simp)
      · obtain ⟨u, hu, he⟩ := List.mem_map.mp hm
        rw [← he]
        exact h u (List.mem_cons_of_mem _ hu)

theorem tryJoin_none_iff {gs : List (List Task)} {t : Task} :
    tryJoin gs t = none ↔ ∀ g ∈ gs, joinCond g t = false := by
  induction gs with
  | nil => simp [tryJoin]
  | cons g gs ih =>
    rw [tryJoin]
    by_cases hc : joinCond g t
    · simp [hc]
    · simp only [Bool.not_eq_true] at hc
      simp [hc, Option.map_eq_none', ih]

theorem tryJoin_some {gs : List (List Task)} {t : Task} {gs' : List (List Task)}
    (h : tryJoin gs t = some gs') :
    ∃ pre g post, gs = pre ++ g :: post ∧ gs' = pre ++ (g ++ [t]) :: post ∧
      joinCond g t = true := by
  induction gs generalizing gs' with
  | nil => exact absurd h (by simp [tryJoin])
  | cons g1 rest ih =>
    rw [tryJoin] at h
    by_cases hc : joinCond g1 t
    · rw [if_pos hc] at h
      obtain rfl : (g1 ++ [t]) :: rest = gs' := by simpa using h
      exact ⟨[], g1, rest, rfl, rfl, hc⟩
    · rw [if_neg hc] at h
      obtain ⟨gs'', hg, rfl⟩ := Option.map_eq_some'.mp h
      obtain ⟨pre, g, post, rfl, rfl, hcond⟩ := ih hg
      exact ⟨g1 :: pre, g, post, rfl, rfl, hcond⟩

theorem groupStep_inv {t : Task} {l' : List Task} {gs : List (List Task)}
    (hfut : ∀ v ∈ l', sLe t v) (hinv : GroupInv (t :: l') gs) :
    GroupInv l' ((tryJoin gs t).getD (gs ++ [[t]])) := by
  obtain ⟨h1, h2, h3, h4⟩ := hinv
  rcases hj : tryJoin gs t with _ | gs'
  · -- no group absorbs the task: a new group is appended
    have hall := tryJoin_none_iff.mp hj
    simp only [Option.getD_none]
    refine ⟨?_, ?_, ?_, ?_⟩
    · intro g hg u hu v hv
      rcases List.mem_append.mp hg with hg | hg
      · exact h1 g hg u hu v (List.mem_cons_of_mem _ hv)
      · have hgt : g = [t] := by simpa using hg
        subst hgt
        have hut : u = t := by simpa using hu
        rw [hut]
        exact hfut v hv
    · intro g hg
      rcases List.mem_append.mp hg with hg | hg
      · exact h2 g hg
      · have hgt : g = [t] := by simpa using hg
        subst hgt
        simp
    · rw [List.pairwise_append]
      refine ⟨h3, by simp, ?_⟩
      intro g hg g' hg' u hu v hv
      have hgt : g' = [t] := by simpa using hg'
      subst hgt
      have hvt : v = t := by simpa using hv
      rw [hvt]
      exact joinCond_false_iff.mp (hall g hg) u hu
    · intro g hg u hu v hv
      rw [List.dropLast_concat] at hg
      have hsep : toMins u.endTime ≤ toMins t.startTime :=
        joinCond_false_iff.mp (hall g hg) u hu
      exact le_trans hsep (hfut v hv)
  · -- some group absorbed the task; it must be the last one
    obtain ⟨pre, g, post, rfl, rfl, hcond⟩ := tryJoin_some hj
    simp only [Option.getD_some]
    rcases post with _ | ⟨p, ps⟩
    · -- absorbed into the last group
      have hdrop : (pre ++ [g]).dropLast = pre := List.dropLast_concat
      refine ⟨?_, ?_, ?_, ?_⟩
      · intro g' hg' u hu v hv
        rcases List.mem_append.mp hg' with hg' | hg'
        · exact h1 g' (by simp [hg']) u hu v (List.mem_cons_of_mem _ hv)
        · have hgt : g' = g ++ [t] := by simpa using hg'
          subst hgt
          rcases List.mem_append.mp hu with hu | hu
          · exact h1 g (by simp) u hu v (List.mem_cons_of_mem _ hv)
          · have hut : u = t := by simpa using hu
            rw [hut]
            exact hfut v hv
      · intro g' hg'
        rcases List.mem_append.mp hg' with hg' | hg'
        · exact h2 g' (by simp [hg'])
        · have hgt : g' = g ++ [t] := by simpa using hg'
          subst hgt
          rw [List.pairwise_append]
          refine ⟨h2 g (by simp), by simp, ?_⟩
          intro u hu v hv
          have hvt : v = t := by simpa using hv
          rw [hvt]
          exact h1 g (by simp) u hu t (by simp)
      · rw [List.pairwise_append]
        rw [List.pairwise_append] at h3
        obtain ⟨h3pre, _, h3cross⟩ := h3
        refine ⟨h3pre, by simp, ?_⟩
        intro g' hg' g'' hg'' u hu v hv
        have hgt : g'' = g ++ [t] := by simpa using hg''
        subst hgt
        rcases List.mem_append.mp hv with hv | hv
        · exact h3cross g' hg' g (by simp) u hu v hv
        · have hvt : v = t := by simpa using hv
          rw [hvt]
          have hg'drop : g' ∈ (pre ++ [g]).dropLast := by
            rw [hdrop]
            exact hg'
          exact h4 g' hg'drop u hu t (by simp)
      · intro g' hg' u hu v hv
        rw [List.dropLast_concat] at hg'
        have hg'drop : g' ∈ (pre ++ [g]).dropLast := by
          rw [hdrop]
          exact hg'
        exact h4 g' hg'drop u hu v (List.mem_cons_of_mem _ hv)
    · -- impossible: a non-last group's running end is below the task's start
      exfalso
      have hgdrop : g ∈ (pre ++ g :: p :: ps).dropLast := by
        rw [List.dropLast_append_of_ne_nil pre (by simp)]
        simp
      have hsep := h4 g hgdrop
      have hfalse : joinCond g t = false := by
        rw [joinCond_false_iff]
        intro u hu
        exact hsep u hu t (by simp)
      rw [hcond] at hfalse
      exact absurd hfalse (by simp)

theorem buildGroups_fold_inv : ∀ (l : List Task) (gs : List (List Task)),
    List.Pairwise sLe l → GroupInv l gs →
    GroupInv [] (l.foldl (fun gs t => (tryJoin gs t).getD (gs ++ [[t]])) gs) := by
  intro l
  induction l with
  | nil => intro gs _ h; exact h
  | cons t l' ih =>
    intro gs hp hinv
    obtain ⟨hfut, hp'⟩ := List.pairwise_cons.mp hp
    exact ih _ hp' (groupStep_inv hfut hinv)

theorem buildGroups_spec (sorted : List Task) (hs : List.Pairwise sLe sorted) :
    (∀ g ∈ buildGroups sorted, List.Pairwise sLe g) ∧
    List.Pairwise (fun g h => ∀ u ∈ g, ∀ v ∈ h, sepT u v) (buildGroups sorted) := by
  have h := buildGroups_fold_inv sorted [] hs ⟨by simp, by simp, by simp, by simp⟩
  exact ⟨h.2.1, h.2.2.1⟩

/-! ### Lane assignment: column building -/

theorem tryPlace_some {cols : List (List Task)} {t : Task} {cols' : List (List Task)}
    (h : tryPlace cols t = some cols') :
    ∃ pre c post last, cols = pre ++ c :: post ∧ cols' = pre ++ (c ++ [t]) :: post ∧
      c.getLast? = some last ∧ toMins last.endTime ≤ toMins t.startTime := by
  induction cols generalizing cols' with
  | nil => exact absurd h (by simp [tryPlace])
  | cons c1 rest ih =>
    rw [tryPlace] at h
    rcases hl : c1.getLast? with _ | last <;> rw [hl] at h
    · obtain ⟨cols'', hc, rfl⟩ := Option.map_eq_some'.mp h
      obtain ⟨pre, c, post, last, rfl, rfl, hlast, hsep⟩ := ih hc
      exact ⟨c1 :: pre, c, post, last, rfl, rfl, hlast, hsep⟩
    · replace h : (if toMins last.endTime ≤ toMins t.startTime then some ((c1 ++ [t]) :: rest)
        else (tryPlace rest t).map (c1 :: ·)) = some cols' := h
      by_cases hc : toMins last.endTime ≤ toMins t.startTime
      · rw [if_pos hc] at h
        obtain rfl : (c1 ++ [t]) :: rest = cols' := by simpa using h
        exact ⟨[], c1, rest, last, rfl, rfl, hl, hc⟩
      · rw [if_neg hc] at h
        obtain ⟨cols'', hcc, rfl⟩ := Option.map_eq_some'.mp h
        obtain ⟨pre, c, post, last', rfl, rfl, hlast, hsep⟩ := ih hcc
        exact ⟨c1 :: pre, c, post, last', rfl, rfl, hlast, hsep⟩

theorem colsStep_inv {g0 : List Task} {t : Task} {l' : List Task} {cols : List (List Task)}
    (hmem : t ∈ g0) (hfut : ∀ v ∈ l', sLe t v) (hinv : ColsInv g0 (t :: l') cols) :
    ColsInv g0 l' ((tryPlace cols t).getD (cols ++ [[t]])) := by
  obtain ⟨h1, h2, h3⟩ := hinv
  rcases hp : tryPlace cols t with _ | cols'
  · simp only [Option.getD_none]
    refine ⟨?_, ?_, ?_⟩
    · intro c hc u hu
      rcases List.mem_append.mp hc with hc | hc
      · exact h1 c hc u hu
      · have hct : c = [t] := by simpa using hc
        subst hct
        have hut : u = t := by simpa using hu
        rw [hut]
        exact hmem
    · intro c hc u hu v hv
      rcases List.mem_append.mp hc with hc | hc
      · exact h2 c hc u hu v (List.mem_cons_of_mem _ hv)
      · have hct : c = [t] := by simpa using hc
        subst hct
        have hut : u = t := by simpa using hu
        rw [hut]
        exact hfut v hv
    · intro c hc
      rcases List.mem_append.mp hc with hc | hc
      · exact h3 c hc
      · have hct : c = [t] := by simpa using hc
        subst hct
        simp
  · obtain ⟨pre, c, post, last, rfl, rfl, hlast, hsep⟩ := tryPlace_some hp
    simp only [Option.getD_some]
    obtain ⟨cinit, rfl⟩ := List.getLast?_eq_some_iff.mp hlast
    have hcmem : cinit ++ [last] ∈ pre ++ (cinit ++ [last]) :: post := by simp
    refine ⟨?_, ?_, ?_⟩
    · intro c' hc' u hu
      rcases List.mem_append.mp hc' with hc' | hc'
      · exact h1 c' (by simp [hc']) u hu
      · rcases List.mem_cons.mp hc' with rfl | hc'
        · rcases List.mem_append.mp hu with hu | hu
          · exact h1 _ hcmem u hu
          · have hut : u = t := by simpa using hu
            rw [hut]
            exact hmem
        · exact h1 c' (by simp [hc']) u hu
    · intro c' hc' u hu v hv
      rcases List.mem_append.mp hc' with hc' | hc'
      · exact h2 c' (by simp [hc']) u hu v (List.mem_cons_of_mem _ hv)
      · rcases List.mem_cons.mp hc' with rfl | hc'
        · rcases List.mem_append.mp hu with hu | hu
          · exact h2 _ hcmem u hu v (List.mem_cons_of_mem _ hv)
          · have hut : u = t := by simpa using hu
            rw [hut]
            exact hfut v hv
        · exact h2 c' (by simp [hc']) u hu v (List.mem_cons_of_mem _ hv)
    · intro c' hc'
      rcases List.mem_append.mp hc' with hc' | hc'
      · exact h3 c' (by simp [hc'])
      · rcases List.mem_cons.mp hc' with rfl | hc'
        · rw [List.append_assoc, List.pairwise_append]
          have h3c := h3 _ hcmem
          rw [List.pairwise_append] at h3c
          obtain ⟨h3init, _, h3cross⟩ := h3c
          refine ⟨h3init, ?_, ?_⟩
          · -- [last, t] is a separated chain
            refine List.pairwise_cons.mpr ⟨?_, by simp⟩
            intro v hv
            have hvt : v = t := by simpa using hv
            rw [hvt]
            exact hsep
          · intro u hu v hv
            rcases List.mem_cons.mp hv with rfl | hv
            · exact h3cross u hu v (by simp)
            · have hvt : v = t := by simpa using hv
              rw [hvt]
              -- u ends before `last` starts, and `last` starts before `t` starts
              have hul : sepT u last := h3cross u hu last (by simp)
              have hlt : sLe last t := h2 _ hcmem last (by simp) t (by simp)
              exact le_trans hul hlt
        · exact h3 c' (by simp [hc'])

theorem buildCols_fold_inv (g0 : List Task) : ∀ (l : List Task) (cols : List (List Task)),
    (∀ v ∈ l, v ∈ g0) → List.Pairwise sLe l → ColsInv g0 l cols →
    ColsInv g0 [] (l.foldl (fun cols t => (tryPlace cols t).getD (cols ++ [[t]])) cols) := by
  intro l
  induction l with
  | nil => intro cols _ _ h; exact h
  | cons t l' ih =>
    intro cols hl hp hinv
    obtain ⟨hfut, hp'⟩ := List.pairwise_cons.mp hp
    exact ih _ (fun v hv => hl v (List.mem_cons_of_mem _ hv)) hp'
      (colsStep_inv (hl t (by simp)) hfut hinv)

theorem buildCols_spec (g : List Task) (hg : List.Pairwise sLe g) :
    (∀ c ∈ buildCols g, ∀ u ∈ c, u ∈ g) ∧
    (∀ c ∈ buildCols g, List.Pairwise sepT c) := by
  have h := buildCols_fold_inv g g [] (fun v hv => hv) hg ⟨by simp, by simp, by simp⟩
  exact ⟨h.1, h.2.2⟩

/-! ### Lane assignment: entry lists -/

theorem pairwise_enumFrom_fst_lt (l : List α) :
    ∀ n, List.Pairwise (fun a b : Nat × α => a.1 < b.1) (List.enumFrom n l) := by
  induction l with
  | nil => intro n; simp
  | cons x xs ih =>
    intro n
    rw [List.enumFrom]
    refine List.pairwise_cons.mpr ⟨?_, ih (n + 1)⟩
    intro p hp
    have := List.le_fst_of_mem_enumFrom hp
    omega

theorem pairwise_enum_fst_lt (l : List α) :
    List.Pairwise (fun a b : Nat × α => a.1 < b.1) l.enum :=
  pairwise_enumFrom_fst_lt l 0

theorem mem_groupEntries {g : List Task} {p : Task × Nat}
    (hp : p ∈ groupEntries g) (hg : List.Pairwise sLe g) : p.1 ∈ g := by
  rw [groupEntries] at hp
  obtain ⟨e, hcol, hpcol⟩ := List.mem_flatMap.mp hp
  obtain ⟨t, ht, rfl⟩ := List.mem_map.mp hpcol
  exact (buildCols_spec g hg).1 e.2 (List.snd_mem_of_mem_enum hcol) t ht

theorem pairwise_groupEntries {g : List Task} (hg : List.Pairwise sLe g) :
    List.Pairwise (fun p q : Task × Nat => p.2 = q.2 → ¬ overlapT p.1 q.1)
      (groupEntries g) := by
  obtain ⟨hmem, hsep⟩ := buildCols_spec g hg
  rw [groupEntries, List.pairwise_flatMap]
  constructor
  · intro e hci
    rw [List.pairwise_map]
    refine (hsep e.2 (List.snd_mem_of_mem_enum hci)).imp ?_
    intro a b hab
    intro _ hov
    simp only [overlapT] at hov
    rw [sepT] at hab
    omega
  · refine (pairwise_enum_fst_lt (buildCols g)).imp ?_
    intro a b hlt x hx y hy
    obtain ⟨tx, _, rfl⟩ := List.mem_map.mp hx
    obtain ⟨ty, _, rfl⟩ := List.mem_map.mp hy
    intro heq
    exact absurd heq (by simpa using Nat.ne_of_lt hlt)

/-- C5: Lane assignment non-overlap.  Over the `(task, lane)` assignments
made by `computeColumns` (the `laneEntries` traversal), for a finite task
list with well-formed clock times: any two distinct entries assigned the same
lane index have non-overlapping intervals (within a group by the column
chain, across groups because groups are temporally separated), and any two
distinct tasks whose intervals overlap are assigned different lanes. -/
theorem laneAssignmentNonOverlap (tasks : List Task)
    (hv : ∀ t ∈ tasks, validHHMM t.startTime = true ∧ validHHMM t.endTime = true) :
    List.Pairwise (fun p q : Task × Nat => p.2 = q.2 → ¬ overlapT p.1 q.1)
      (laneEntries tasks) ∧
    ∀ p ∈ laneEntries tasks, ∀ q ∈ laneEntries tasks, p.1 ≠ q.1 → overlapT p.1 q.1 →
      p.2 ≠ q.2 := by
  have hsorted0 : List.Pairwise (fun a b => taskLe a b = true) (sortBy taskLe tasks) :=
    sortBy_pairwise taskLe_total taskLe_trans tasks
  have hsorted : List.Pairwise sLe (sortBy taskLe tasks) := by
    refine hsorted0.imp_of_mem ?_
    intro a b ha hb hle
    exact (strLe_iff_toMins (hv a (mem_sortBy.mp ha)).1 (hv b (mem_sortBy.mp hb)).1).mp hle
  obtain ⟨hgroups, hsepgroups⟩ := buildGroups_spec (sortBy taskLe tasks) hsorted
  have hpw : List.Pairwise (fun p q : Task × Nat => p.2 = q.2 → ¬ overlapT p.1 q.1)
      (laneEntries tasks) := by
    rw [laneEntries, List.pairwise_flatMap]
    constructor
    · intro g hgm
      exact pairwise_groupEntries (hgroups g hgm)
    · refine hsepgroups.imp_of_mem ?_
      intro g h hgm hhm hsep x hx y hy
      have hx1 : x.1 ∈ g := mem_groupEntries hx (hgroups g hgm)
      have hy1 : y.1 ∈ h := mem_groupEntries hy (hgroups h hhm)
      have hxy := hsep x.1 hx1 y.1 hy1
      intro _ hov
      rw [sepT] at hxy
      rw [overlapT] at hov
      omega
  refine ⟨hpw, ?_⟩
  intro p hp q hq hne hov heq
  have hPsymm : Symmetric (fun p q : Task × Nat => p.2 = q.2 → ¬ overlapT p.1 q.1) := by
    intro a b hab heq2 hov2
    exact hab heq2.symm ⟨hov2.2, hov2.1⟩
  exact hpw.forall hPsymm hp hq (fun hpq => hne (congrArg Prod.fst hpq)) heq hov

/-- Witness for C5: the lane assignment property instantiated on a concrete
two-task day. -/
theorem laneAssignmentNonOverlap_witness :
    List.Pairwise (fun p q : Task × Nat => p.2 = q.2 → ¬ overlapT p.1 q.1)
      (laneEntries [taskA, taskB]) ∧
    ∀ p ∈ laneEntries [taskA, taskB], ∀ q ∈ laneEntries [taskA, taskB],
      p.1 ≠ q.1 → overlapT p.1 q.1 → p.2 ≠ q.2 :=
  laneAssignmentNonOverlap [taskA, taskB] (by decide)

end DayPlanner
